import Mathlib

/-!
Verification development for the ZuhausProto matching and bidding engine.

The definitions below are a shallow embedding of `src/server/matching.ts`
(class `MatchingEngine`), together with the data model of
`src/shared/schema.ts`.  JavaScript numbers are modelled by `ℚ`; the only
place the source computes an irrational value is `Math.sqrt` inside
`euclideanDistance` (`src/server/utils.ts`), which is modelled by `sqrtQ`,
a rational square root that is exact on perfect squares and otherwise an
upper approximation within `2 ^ (-64)` (the source itself computes with
IEEE-754 doubles, so its square root is likewise an approximation).
JavaScript's stable `Array.prototype.sort` is modelled by a stable
insertion sort (`sortBy`); for the consistent comparators used by the
engine the two produce identical outputs.
-/

/-- Person preferences, following `personPreferencesSchema` in
`src/shared/schema.ts`.  Ranged attributes are required tuples, the
`Worth` penalties and the interpersonal attributes are optional. -/
structure PersonPreferences where
  sqMeters : ℚ × ℚ
  sqMetersWorth : Option ℚ
  numWindows : ℚ × ℚ
  numWindowsWorth : Option ℚ
  windowDirections : List String
  windowDirectionsWorth : Option ℚ
  totalWindowSize : ℚ × ℚ
  totalWindowSizeWorth : Option ℚ
  numBedrooms : ℚ × ℚ
  numBedroomsWorth : Option ℚ
  numBathrooms : ℚ × ℚ
  numBathroomsWorth : Option ℚ
  hasDishwasher : Bool
  dishwasherWorth : Option ℚ
  hasWasher : Bool
  washerWorth : Option ℚ
  hasDryer : Bool
  dryerWorth : Option ℚ
  bidAmount : ℚ
  maxRoommates : Option ℕ
  cleanliness : Option ℚ
  quietness : Option ℚ
  guests : Option ℚ
  personalSpace : Option ℚ
  sleepTime : Option (ℚ × ℚ)
  wakeTime : Option (ℚ × ℚ)
deriving DecidableEq

/-- Apartment record, following `apartmentSchema` in `src/shared/schema.ts`.
Note that `windowDirections` is an array of strings there. -/
structure Apartment where
  id : String
  name : String
  sqMeters : ℚ
  numWindows : ℚ
  windowDirections : List String
  totalWindowSize : ℚ
  numBedrooms : ℚ
  numBathrooms : ℚ
  hasDishwasher : Bool
  hasWasher : Bool
  hasDryer : Bool
  tenants : ℚ
  allowRoommates : Bool
deriving DecidableEq

/-- Person record, following `personSchema` in `src/shared/schema.ts`
(preferences included directly). -/
structure Person where
  id : String
  name : String
  preferences : PersonPreferences
  allowRoommates : Bool
  assignedRoom : Option String
  requiredPayment : Option ℚ
deriving DecidableEq

/-- Internal person representation of `src/server/matching.ts`: a person
together with the normalized social vector. -/
structure DecodedPerson where
  person : Person
  socialVector : List ℚ
deriving DecidableEq

/-- Roommate group, mirroring the `RoommateGroup` interface of
`src/server/matching.ts`. -/
structure RoommateGroup where
  members : List DecodedPerson
  compatibility : ℚ
  maxSize : ℕ
deriving DecidableEq

/-- Apartment bid, mirroring the `ApartmentBid` interface of
`src/server/matching.ts`.  The JavaScript object
`individualAdjustedBids` keyed by person id is modelled as an
association list in member order. -/
structure ApartmentBid where
  apartment : Apartment
  bidder : RoommateGroup
  totalGroupBid : ℚ
  individualAdjustedBids : List (String × ℚ)
  groupMembersNames : List String
deriving DecidableEq

/-- Assigned person inside a matching result (`matchingResultSchema`). -/
structure AssignedPerson where
  id : String
  name : String
  payment : ℚ
deriving DecidableEq

/-- Matching result, following `matchingResultSchema` in
`src/shared/schema.ts`. -/
structure MatchingResult where
  apartmentId : String
  apartmentName : String
  assignedPeople : List AssignedPerson
  totalPayment : ℚ
  tenants : ℕ
  capacity : ℚ
deriving DecidableEq

/-- Log entry pushed into `assignmentsLog` for every member of a winning
group (`runMatching`, step 4 of the loop in `src/server/matching.ts`). -/
structure LogEntry where
  apartment_name : String
  person_id : String
  person_name : String
  expected_payment : ℚ
  adjusted_bid : ℚ
  group_winning_bid : ℚ
  second_highest_bid_for_apt : ℚ
deriving DecidableEq

/-- Record of one successful auction round.  The source keeps the flat
`assignmentsLog`; a `Round` additionally remembers the chosen apartment
and its full sorted bid list (`winningBidListForChosenApt`), which are in
scope in the source when the log entries are pushed.  The source's flat
log is the concatenation of the `entries` fields. -/
structure Round where
  apartment : Apartment
  bids : List ApartmentBid
  entries : List LogEntry
deriving DecidableEq

/-- Rational square root used to model `Math.sqrt`: exact whenever the
argument is a square of a rational, otherwise the least upper bound on
the grid of step `1 / (q.den * 2 ^ 64)`.  The source computes `Math.sqrt`
on IEEE-754 doubles, which is likewise a rounded approximation. -/
def sqrtQ (q : ℚ) : ℚ :=
  if q ≤ 0 then 0
  else
    let n := q.num.toNat
    let d := q.den
    let s := Nat.sqrt (n * d * (2 ^ 64) ^ 2)
    if s * s = n * d * (2 ^ 64) ^ 2 then (s : ℚ) / (d * 2 ^ 64)
    else ((s : ℚ) + 1) / (d * 2 ^ 64)

/-- Sum of squared componentwise differences.  The source's
`euclideanDistance` (`src/server/utils.ts`) throws on a length mismatch;
the engine only ever calls it on the two six-component social vectors
built by `preparePersonForMatching`, so the lengths always agree and the
truncating `zipWith` is faithful on every reachable input. -/
def sumSquares (v w : List ℚ) : ℚ :=
  (List.zipWith (fun a b => (a - b) ^ 2) v w).sum

/-- Euclidean distance on rational vectors (`src/server/utils.ts`), with
`Math.sqrt` modelled by `sqrtQ`. -/
def euclideanDistance (v w : List ℚ) : ℚ :=
  sqrtQ (sumSquares v w)

/-- Normalized social vector of a person, exactly as built by
`preparePersonForMatching` in `src/server/matching.ts`: the four
interpersonal attributes scaled by 100 (missing values contribute 0) and
the midpoints of the sleep and wake ranges scaled by 1440 (a missing
range is replaced by `[0, 0]`), in the key order of
`SOCIAL_PREF_KEY_NORMS`. -/
def socialVectorOf (p : Person) : List ℚ :=
  let sleepRange := p.preferences.sleepTime.getD (0, 0)
  let wakeRange := p.preferences.wakeTime.getD (0, 0)
  let midSleep := (sleepRange.1 + sleepRange.2) / 2
  let midWake := (wakeRange.1 + wakeRange.2) / 2
  [ (p.preferences.cleanliness.getD 0) / 100,
    (p.preferences.quietness.getD 0) / 100,
    (p.preferences.guests.getD 0) / 100,
    (p.preferences.personalSpace.getD 0) / 100,
    midSleep / 1440,
    midWake / 1440 ]

/-- Embedding of `preparePersonForMatching`. -/
def preparePersonForMatching (p : Person) : DecodedPerson :=
  { person := p, socialVector := socialVectorOf p }

/-- Embedding of `calculateSocialCompatibility` in `src/server/matching.ts`:
the negated Euclidean distance of the two social vectors. -/
def calculateSocialCompatibility (p1 p2 : DecodedPerson) : ℚ :=
  -(euclideanDistance p1.socialVector p2.socialVector)

/-- Stable ordered insertion used by `sortBy`. -/
def orderedInsertBy (le : α → α → Bool) (a : α) : List α → List α
  | [] => [a]
  | b :: l => if le a b then a :: b :: l else b :: orderedInsertBy le a l

/-- Stable insertion sort modelling JavaScript's stable
`Array.prototype.sort`; `le a b` means `a` may come no later than `b`
(comparator result at most 0). -/
def sortBy (le : α → α → Bool) : List α → List α
  | [] => []
  | a :: l => orderedInsertBy le a (sortBy le l)

/-- Embedding of the recursive `getCombinations` of
`src/server/matching.ts`: all `k`-element combinations in backtracking
order (combinations containing the first element first, preserving list
order inside each combination). -/
def getCombinations : List α → ℕ → List (List α)
  | _, 0 => [[]]
  | [], _ + 1 => []
  | x :: xs, k + 1 =>
      (getCombinations xs k).map (fun c => x :: c) ++ getCombinations xs (k + 1)

/-- Effective `maxRoommates` of a person: the source reads
`(p.preferences.maxRoommates || 0)`. -/
def maxRoommatesOf (p : DecodedPerson) : ℕ :=
  p.person.preferences.maxRoommates.getD 0

/-- List of pairwise compatibility scores over the strict upper triangle,
in the order of the nested `i < j` loops of `generatePotentialGroups`. -/
def pairScores : List DecodedPerson → List ℚ
  | [] => []
  | m :: rest => rest.map (fun m2 => calculateSocialCompatibility m m2) ++ pairScores rest

/-- Group `maxSize` as computed in `generatePotentialGroups`:
`reduce(Math.min over maxRoommates + 1, Infinity)`; the groups built by
the generator are never empty, so the `Infinity` seed never survives and
`minimum?.getD 0` is faithful there. -/
def groupMaxSizeOf (ms : List DecodedPerson) : ℕ :=
  ((ms.map (fun p => maxRoommatesOf p + 1)).min?).getD 0

/-- Deduplication state plus accumulated groups of
`generatePotentialGroups`: the `potentialGroupsSet` of stringified sorted
id lists is modelled as a list of sorted id lists. -/
abbrev GenState := List (List String) × List RoommateGroup

/-- Canonical key of a member list: the sorted list of person ids
(`JSON.stringify(ids.sort())` in the source). -/
def groupKeyOf (ms : List DecodedPerson) : List String :=
  sortBy (fun a b => decide (a ≤ b)) (ms.map (fun m => m.person.id))

/-- Push a group unless its key was already seen. -/
def addGroup (st : GenState) (key : List String) (g : RoommateGroup) : GenState :=
  if key ∈ st.1 then st else (key :: st.1, st.2 ++ [g])

/-- Inner combination step of `generatePotentialGroups`: given the anchor
and one combination of scored candidates, run the `allAllowRoommates`,
`allWillingSize` and compatibility-threshold checks and push the group. -/
def comboStep (pAnchor : DecodedPerson) (st : GenState)
    (combo : List (ℚ × DecodedPerson)) : GenState :=
  let currentGroupMembers := pAnchor :: combo.map (fun c => c.2)
  let allAllowRoommates := currentGroupMembers.all (fun p => p.person.allowRoommates)
  let allWillingSize := currentGroupMembers.all
    (fun p => maxRoommatesOf p ≥ currentGroupMembers.length - 1)
  if ¬ (allAllowRoommates ∧ allWillingSize) then st
  else
    let scores := pairScores currentGroupMembers
    let pairCount := scores.length
    let avgCompatibility := if pairCount > 0 then scores.sum / pairCount else 100
    if avgCompatibility ≥ -100 then
      addGroup st (groupKeyOf currentGroupMembers)
        { members := currentGroupMembers,
          compatibility := avgCompatibility,
          maxSize := groupMaxSizeOf currentGroupMembers }
    else st

/-- Roommate candidates of an anchor: everyone in the pool whose id
differs from the anchor's. -/
def roommateCandidatesOf (unassignedPeople : List DecodedPerson)
    (pAnchor : DecodedPerson) : List DecodedPerson :=
  unassignedPeople.filter (fun p => p.person.id ≠ pAnchor.person.id)

/-- Candidates scored by compatibility with the anchor and sorted
descending by score (stable). -/
def scoredCandidatesOf (unassignedPeople : List DecodedPerson)
    (pAnchor : DecodedPerson) : List (ℚ × DecodedPerson) :=
  sortBy (fun a b => decide (b.1 ≤ a.1))
    ((roommateCandidatesOf unassignedPeople pAnchor).map
      (fun c => (calculateSocialCompatibility pAnchor c, c)))

/-- Anchor step of `generatePotentialGroups`: the singleton group followed
by the `numRoommates` loop from 1 to the anchor's `maxRoommates`. -/
def anchorStep (unassignedPeople : List DecodedPerson) (st : GenState)
    (pAnchor : DecodedPerson) : GenState :=
  let st := addGroup st [pAnchor.person.id]
    { members := [pAnchor], compatibility := 100, maxSize := 1 }
  (List.range (maxRoommatesOf pAnchor)).foldl (fun st i =>
    let numRoommates := i + 1
    if numRoommates > (roommateCandidatesOf unassignedPeople pAnchor).length then st
    else
      (getCombinations (scoredCandidatesOf unassignedPeople pAnchor) numRoommates).foldl
        (comboStep pAnchor) st) st

/-- Embedding of `generatePotentialGroups` in `src/server/matching.ts`:
fold the anchor step over the unassigned pool, then sort the collected
groups by compatibility descending (stable). -/
def generatePotentialGroups (unassignedPeople : List DecodedPerson) :
    List RoommateGroup :=
  sortBy (fun a b => decide (b.compatibility ≤ a.compatibility))
    ((unassignedPeople.foldl (anchorStep unassignedPeople) ([], [])).2)

/-- Range check of `calculateAdjustedBid`: the penalty applies when the
apartment's value falls strictly outside the inclusive preference range
(`checkRange` in `src/server/matching.ts`; the range tuples of the schema
always have length 2). -/
def checkRangeDeduction (value : ℚ) (prefRange : ℚ × ℚ) (worth : Option ℚ) : ℚ :=
  if value < prefRange.1 ∨ value > prefRange.2 then worth.getD 0 else 0

/-- Window-direction deduction of `calculateAdjustedBid`
(lines 186–192 of `src/server/matching.ts`): build the set of preferred
directions, and if it is non-empty and its intersection with the
apartment's directions is empty, deduct `windowDirectionsWorth`.  The
`apartment.windowDirections.has(dir)` call is interpreted as set
membership (its evident intent); `calculateAdjustedBidRun` below models
the runtime behaviour of the literal array receiver. -/
def windowDirectionDeduction (prefs : PersonPreferences) (apartment : Apartment) : ℚ :=
  let prefWDirs := prefs.windowDirections.dedup
  if prefWDirs ≠ [] then
    if prefWDirs.filter (fun dir => apartment.windowDirections.contains dir) = []
    then prefs.windowDirectionsWorth.getD 0 else 0
  else 0

/-- Sum of the amenity deductions of `calculateAdjustedBid`. -/
def amenityDeduction (prefs : PersonPreferences) (apartment : Apartment) : ℚ :=
  (if prefs.hasDishwasher ∧ ¬ apartment.hasDishwasher then prefs.dishwasherWorth.getD 0 else 0)
  + (if prefs.hasWasher ∧ ¬ apartment.hasWasher then prefs.washerWorth.getD 0 else 0)
  + (if prefs.hasDryer ∧ ¬ apartment.hasDryer then prefs.dryerWorth.getD 0 else 0)

/-- Embedding of `calculateAdjustedBid` in `src/server/matching.ts`:
base bid minus the accumulated deductions, in source order.  The
`groupSize` parameter is present in the source signature and unused in
its body. -/
def calculateAdjustedBid (p : DecodedPerson) (apartment : Apartment)
    (groupSize : ℕ) : ℚ :=
  let _ := groupSize
  let prefs := p.person.preferences
  prefs.bidAmount -
    (checkRangeDeduction apartment.sqMeters prefs.sqMeters prefs.sqMetersWorth
      + checkRangeDeduction apartment.numWindows prefs.numWindows prefs.numWindowsWorth
      + windowDirectionDeduction prefs apartment
      + checkRangeDeduction apartment.totalWindowSize prefs.totalWindowSize prefs.totalWindowSizeWorth
      + checkRangeDeduction apartment.numBedrooms prefs.numBedrooms prefs.numBedroomsWorth
      + checkRangeDeduction apartment.numBathrooms prefs.numBathrooms prefs.numBathroomsWorth
      + amenityDeduction prefs apartment)

/-- Modelled from ECMAScript semantics: the execution of
`calculateAdjustedBid` as written.  Per `apartmentSchema`,
`apartment.windowDirections` is an array of strings, and
`Array.prototype` has no `has` method, so as soon as the preferred
direction set is non-empty the callback of
`[...prefWDirs].filter(dir => apartment.windowDirections.has(dir))`
throws a `TypeError`; with an empty preference set the callback is never
invoked and the computation returns a number. -/
def calculateAdjustedBidRun (p : DecodedPerson) (apartment : Apartment)
    (groupSize : ℕ) : Except String ℚ :=
  let _ := groupSize
  let prefs := p.person.preferences
  if prefs.windowDirections.dedup ≠ [] then
    Except.error "TypeError: apartment.windowDirections.has is not a function"
  else
    Except.ok (prefs.bidAmount -
      (checkRangeDeduction apartment.sqMeters prefs.sqMeters prefs.sqMetersWorth
        + checkRangeDeduction apartment.numWindows prefs.numWindows prefs.numWindowsWorth
        + checkRangeDeduction apartment.totalWindowSize prefs.totalWindowSize prefs.totalWindowSizeWorth
        + checkRangeDeduction apartment.numBedrooms prefs.numBedrooms prefs.numBedroomsWorth
        + checkRangeDeduction apartment.numBathrooms prefs.numBathrooms prefs.numBathroomsWorth
        + amenityDeduction prefs apartment))

/-- Member loop of the bid collection in `runMatching`
(lines 270–284 of `src/server/matching.ts`): a member of a group of size
greater than 1 must allow roommates, and a negative adjusted bid
invalidates the whole group; otherwise the id/bid pairs and the total are
accumulated in member order. -/
def collectMemberBids (apartment : Apartment) (groupSize : ℕ) :
    List DecodedPerson → Option (List (String × ℚ) × ℚ)
  | [] => some ([], 0)
  | m :: rest =>
    if groupSize > 1 ∧ ¬ m.person.allowRoommates then none
    else
      let adjBid := calculateAdjustedBid m apartment groupSize
      if adjBid < 0 then none
      else (collectMemberBids apartment groupSize rest).map
        (fun lt => ((m.person.id, adjBid) :: lt.1, adjBid + lt.2))

/-- One (apartment, group) bid attempt of `runMatching`
(lines 248–294 of `src/server/matching.ts`): skip if some member is no
longer unassigned, if the group exceeds the bedroom count, or if a group
of size greater than 1 hits an apartment that disallows roommates; then
run the member loop and keep the bid only if the total is positive. -/
def tryBid (apartment : Apartment) (unassignedPeople : List DecodedPerson)
    (g : RoommateGroup) : Option ApartmentBid :=
  let groupSize := g.members.length
  if g.members.any
      (fun m => ¬ unassignedPeople.any (fun p => p.person.id = m.person.id)) then none
  else if (groupSize : ℚ) > apartment.numBedrooms then none
  else if groupSize > 1 ∧ ¬ apartment.allowRoommates then none
  else
    match collectMemberBids apartment groupSize g.members with
    | none => none
    | some lt =>
      if lt.2 > 0 then
        some { apartment := apartment, bidder := g, totalGroupBid := lt.2,
               individualAdjustedBids := lt.1,
               groupMembersNames := g.members.map (fun m => m.person.name) }
      else none

/-- All bids collected for one apartment in one round, sorted descending
by total group bid (stable), as in lines 245–299 of
`src/server/matching.ts`. -/
def bidsForApartment (apartment : Apartment) (groups : List RoommateGroup)
    (unassignedPeople : List DecodedPerson) : List ApartmentBid :=
  sortBy (fun a b => decide (b.totalGroupBid ≤ a.totalGroupBid))
    (groups.foldl (fun acc g =>
      match tryBid apartment unassignedPeople g with
      | some b => acc ++ [b]
      | none => acc) [])

/-- Per-round bid table: each available apartment with its sorted bid
list, keeping only apartments that received at least one bid
(`bidsForApartments` in the source). -/
def roundBids (availableApartments : List Apartment)
    (groups : List RoommateGroup) (unassignedPeople : List DecodedPerson) :
    List (Apartment × List ApartmentBid) :=
  (availableApartments.map
    (fun a => (a, bidsForApartment a groups unassignedPeople))).filter
    (fun x => ¬ x.2.isEmpty)

/-- Selection fold of `bestAptToConsiderThisRound`: walk the apartments
in order, keeping the first apartment whose top bid strictly exceeds the
running maximum (initialized to -1). -/
def selectBestAux : List (Apartment × List ApartmentBid) →
    Option (Apartment × List ApartmentBid) → ℚ →
    Option (Apartment × List ApartmentBid)
  | [], cur, _ => cur
  | (a, bs) :: rest, cur, hi =>
    match bs with
    | [] => selectBestAux rest cur hi
    | b :: _ =>
      if b.totalGroupBid > hi then selectBestAux rest (some (a, bs)) b.totalGroupBid
      else selectBestAux rest cur hi

/-- Apartment selected for assignment this round, with its bid list. -/
def selectBest (l : List (Apartment × List ApartmentBid)) :
    Option (Apartment × List ApartmentBid) :=
  selectBestAux l none (-1)

/-- Log entries pushed for the members of the winning group
(lines 332–358 of `src/server/matching.ts`): each member pays
`secondHighest * (individualAdjustedBid / winningTotal)`, looked up from
the bid's id-keyed adjusted bids. -/
def mkEntries (apartment : Apartment) (secondHighest winningTotal : ℚ)
    (b : ApartmentBid) : List LogEntry :=
  b.bidder.members.map (fun m =>
    let adj := (b.individualAdjustedBids.lookup m.person.id).getD 0
    { apartment_name := apartment.name,
      person_id := m.person.id,
      person_name := m.person.name,
      expected_payment := secondHighest * (adj / winningTotal),
      adjusted_bid := adj,
      group_winning_bid := winningTotal,
      second_highest_bid_for_apt := secondHighest })

/-- Second-highest total bid for the chosen apartment: the second element
of the sorted bid list, defaulting to 0 when fewer than two bids exist
(lines 326–329 of `src/server/matching.ts`). -/
def secondHighestOf : List ApartmentBid → ℚ
  | _ :: b2 :: _ => b2.totalGroupBid
  | _ => 0

/-- Main auction loop of `runMatching` (`while` loop of
`src/server/matching.ts`), with the iteration counter modelled as fuel
(the source guard is `iterationCount < 100`, so at most 100 iterations
run).  Every branch of the source body is mirrored, including the
defensive `continue` paths that are unreachable under the bid-collection
invariants. -/
def runMatchingLoop : ℕ → List DecodedPerson → List Apartment → List Round
  | 0, _, _ => []
  | fuel + 1, unassignedPeople, availableApartments =>
    if unassignedPeople.isEmpty ∨ availableApartments.isEmpty then []
    else
      let potentialGroups := generatePotentialGroups unassignedPeople
      if potentialGroups.isEmpty then []
      else
        match selectBest (roundBids availableApartments potentialGroups unassignedPeople) with
        | none => []
        | some (apt, bids) =>
          match bids with
          | [] => runMatchingLoop fuel unassignedPeople availableApartments
          | b :: rest =>
            let winningTotalBid := b.totalGroupBid
            let secondHighest := secondHighestOf (b :: rest)
            if winningTotalBid > 0 then
              let idsOfAssignedPeople := b.bidder.members.map (fun m => m.person.id)
              { apartment := apt, bids := b :: rest,
                entries := mkEntries apt secondHighest winningTotalBid b } ::
                runMatchingLoop fuel
                  (unassignedPeople.filter
                    (fun p => ¬ idsOfAssignedPeople.contains p.person.id))
                  (availableApartments.filter (fun a2 => a2.id ≠ apt.id))
            else
              runMatchingLoop fuel unassignedPeople
                (availableApartments.filter (fun a2 => a2.id ≠ apt.id))

/-- Rounds produced by one call of `runMatching` on the given people and
apartments. -/
def runMatchingRounds (people : List Person) (apartments : List Apartment) :
    List Round :=
  runMatchingLoop 100 (people.map preparePersonForMatching) apartments

/-- Flat `assignmentsLog` of a run: concatenation of the per-round
entries, exactly as the source pushes them. -/
def assignmentsLogOf (people : List Person) (apartments : List Apartment) :
    List LogEntry :=
  ((runMatchingRounds people apartments).map (fun r => r.entries)).flatten

/-- Fold step converting one log entry into the `finalMatchingResultsMap`
(lines 373–398 of `src/server/matching.ts`): get or create the result for
the entry's apartment name (dropping the entry if no apartment of that
name exists in the original list), push the person, bump `tenants` and
overwrite `totalPayment` with the entry's `group_winning_bid`.  The
JavaScript `Map` keyed by name with insertion order is modelled as an
association list appended at the end. -/
def logEntryStep (apartments : List Apartment)
    (acc : List (String × MatchingResult)) (e : LogEntry) :
    List (String × MatchingResult) :=
  let push := fun (r : MatchingResult) =>
    { r with
      assignedPeople := r.assignedPeople ++
        [{ id := e.person_id, name := e.person_name, payment := e.expected_payment }],
      tenants := r.tenants + 1,
      totalPayment := e.group_winning_bid }
  if (acc.lookup e.apartment_name).isSome then
    acc.map (fun kv => if kv.1 = e.apartment_name then (kv.1, push kv.2) else kv)
  else
    match apartments.find? (fun a => a.name = e.apartment_name) with
    | none => acc
    | some apt =>
      acc ++ [(e.apartment_name, push
        { apartmentId := apt.id, apartmentName := apt.name, assignedPeople := [],
          totalPayment := e.group_winning_bid, tenants := 0,
          capacity := apt.numBedrooms })]

/-- Embedding of `runMatching` in `src/server/matching.ts`: run the
auction loop and convert the flat assignments log into the list of
matching results (map values in insertion order). -/
def runMatching (people : List Person) (apartments : List Apartment) :
    List MatchingResult :=
  ((assignmentsLogOf people apartments).foldl (logEntryStep apartments) []).map
    (fun kv => kv.2)

/-- Winning total of a round: the total group bid at the head of the
round's sorted bid list (`winningTotalBid` in the source). -/
def roundWinningTotal (r : Round) : ℚ :=
  match r.bids with
  | b :: _ => b.totalGroupBid
  | [] => 0

/-- Payments of a round, in entry order. -/
def roundPayments (r : Round) : List ℚ :=
  r.entries.map (fun e => e.expected_payment)

/-- Person ids appearing in a round's log entries. -/
def roundIds (r : Round) : List String :=
  r.entries.map (fun e => e.person_id)

/-- Applicant ids across all assigned people of the returned results. -/
def allAssignedIds (rs : List MatchingResult) : List String :=
  (rs.map (fun r => r.assignedPeople.map (fun a => a.id))).flatten

/-- Copy of a decoded person with the window-direction preference list
emptied; used to isolate the window-direction deduction. -/
def clearWindowDirections (m : DecodedPerson) : DecodedPerson :=
  { m with person := { m.person with preferences :=
      { m.person.preferences with windowDirections := [] } } }

/-- Modelled from the spec (§4.1) and the C5 claim text: the pairwise
interpersonal compatibility as the spec describes it — the mean, over
the four interpersonal attributes present on both profiles, of
`100 - |a - b|`, folded with one further term averaging a circular
sleep-midpoint similarity and a circular wake-midpoint similarity, each
`max(0, 100 - (diff/360)*100)` with `diff = min(|x-y|, 1440-|x-y|)`;
attributes missing on either side are skipped, and two applicants with
no comparable attributes score 0.  This definition follows the spec's
words and is compared against `calculateSocialCompatibility`, the
embedding of the source. -/
def specInterpersonalCompatibility (p1 p2 : Person) : ℚ :=
  let factorScore := fun (a b : Option ℚ) =>
    match a, b with
    | some x, some y => some (100 - |x - y|)
    | _, _ => none
  let circScore := fun (x y : ℚ) =>
    let diff := min |x - y| (1440 - |x - y|)
    max 0 (100 - (diff / 360) * 100)
  let timeScore :=
    match p1.preferences.sleepTime, p2.preferences.sleepTime,
        p1.preferences.wakeTime, p2.preferences.wakeTime with
    | some s1, some s2, some w1, some w2 =>
      some ((circScore ((s1.1 + s1.2) / 2) ((s2.1 + s2.2) / 2)
            + circScore ((w1.1 + w1.2) / 2) ((w2.1 + w2.2) / 2)) / 2)
    | _, _, _, _ => none
  let scores :=
    [factorScore p1.preferences.cleanliness p2.preferences.cleanliness,
     factorScore p1.preferences.quietness p2.preferences.quietness,
     factorScore p1.preferences.guests p2.preferences.guests,
     factorScore p1.preferences.personalSpace p2.preferences.personalSpace,
     timeScore].reduceOption
  if scores.length > 0 then scores.sum / scores.length else 0

/-- Well-formedness of a collected bid: the total is the sum of the
individual adjusted bids, every individual adjusted bid is non-negative,
the keys of the individual bids are the member ids in order, the total is
positive, and the member list is non-empty. -/
def BidWF (b : ApartmentBid) : Prop :=
  b.totalGroupBid = (b.individualAdjustedBids.map (fun x => x.2)).sum ∧
  (∀ x ∈ b.individualAdjustedBids, 0 ≤ x.2) ∧
  b.individualAdjustedBids.map (fun x => x.1) =
    b.bidder.members.map (fun m => m.person.id) ∧
  0 < b.totalGroupBid ∧
  b.bidder.members ≠ []

/-- Well-formedness of an emitted round: the bid list is non-empty and
sorted descending by total, every bid in it is well-formed, and the
entries are exactly the ones built from the head bid with the round's
second-highest value. -/
def RoundWF (r : Round) : Prop :=
  ∃ b bs, r.bids = b :: bs ∧
    r.entries = mkEntries r.apartment (secondHighestOf (b :: bs)) b.totalGroupBid b ∧
    (∀ x ∈ r.bids, BidWF x) ∧
    r.bids.Pairwise (fun x y => y.totalGroupBid ≤ x.totalGroupBid)

/-- Conditions under which the source collects a (unit, group) bid, read
off lines 245–295 of `src/server/matching.ts`: the group is entirely
unassigned, the group fits the bedroom count (current tenants are
ignored), a group of more than one person needs the apartment and all
members to allow roommates, every member's individual adjusted bid is
non-negative, and the group total is positive. -/
def BidCollectible (apt : Apartment) (u : List DecodedPerson)
    (g : RoommateGroup) : Prop :=
  (∀ m ∈ g.members, ∃ p ∈ u, p.person.id = m.person.id) ∧
  ((g.members.length : ℚ) ≤ apt.numBedrooms) ∧
  (g.members.length > 1 → apt.allowRoommates = true) ∧
  (∀ m ∈ g.members, (g.members.length > 1 → m.person.allowRoommates = true) ∧
    0 ≤ calculateAdjustedBid m apt g.members.length) ∧
  0 < (g.members.map (fun m => calculateAdjustedBid m apt g.members.length)).sum

/-- Preference profile satisfied by every test apartment below: wide
ranges, no amenity wishes, no direction wishes, identical social
attributes. -/
def prefsWide : PersonPreferences :=
  { sqMeters := (0, 1000), sqMetersWorth := none,
    numWindows := (0, 1000), numWindowsWorth := none,
    windowDirections := [], windowDirectionsWorth := none,
    totalWindowSize := (0, 1000), totalWindowSizeWorth := none,
    numBedrooms := (0, 1000), numBedroomsWorth := none,
    numBathrooms := (0, 1000), numBathroomsWorth := none,
    hasDishwasher := false, dishwasherWorth := none,
    hasWasher := false, washerWorth := none,
    hasDryer := false, dryerWorth := none,
    bidAmount := 100, maxRoommates := some 0,
    cleanliness := some 50, quietness := some 50, guests := some 50,
    personalSpace := some 50, sleepTime := some (1320, 1380),
    wakeTime := some (360, 420) }

/-- Solo test applicant with bid 100 and every preference satisfied. -/
def p0 : Person :=
  { id := "p0", name := "P0", preferences := prefsWide,
    allowRoommates := false, assignedRoom := none, requiredPayment := none }

/-- Test apartment with one bedroom and no current tenants. -/
def a0 : Apartment :=
  { id := "a0", name := "Apt0", sqMeters := 60, numWindows := 2,
    windowDirections := ["N"], totalWindowSize := 10, numBedrooms := 1,
    numBathrooms := 1, hasDishwasher := false, hasWasher := false,
    hasDryer := false, tenants := 0, allowRoommates := true }

/-- Test apartment identical to `a0` except that one tenant already
occupies its single bedroom. -/
def a1b : Apartment := { a0 with tenants := 1 }

/-- Test applicant with bid ceiling 1000 and an area preference of
50–100 m² worth 100; socially identical to `pB`. -/
def pA : Person :=
  { id := "pa", name := "A",
    preferences := { prefsWide with
                     bidAmount := 1000, maxRoommates := some 1,
                     sqMeters := (50, 100), sqMetersWorth := some 100 },
    allowRoommates := true, assignedRoom := none, requiredPayment := none }

/-- Test applicant with bid ceiling 800 and no binding constraints. -/
def pB : Person :=
  { id := "pb", name := "B",
    preferences := { prefsWide with bidAmount := 800, maxRoommates := some 1 },
    allowRoommates := true, assignedRoom := none, requiredPayment := none }

/-- Two-bedroom test apartment of 120 m², outside `pA`'s area range. -/
def apt2 : Apartment :=
  { id := "a2", name := "Apt2", sqMeters := 120, numWindows := 2,
    windowDirections := ["N"], totalWindowSize := 10, numBedrooms := 2,
    numBathrooms := 1, hasDishwasher := false, hasWasher := false,
    hasDryer := false, tenants := 0, allowRoommates := true }

/-- Test applicant who asks for a south-facing window. -/
def pW : Person :=
  { id := "pw", name := "W",
    preferences := { prefsWide with
                     windowDirections := ["S"],
                     windowDirectionsWorth := some 25 },
    allowRoommates := false, assignedRoom := none, requiredPayment := none }

/-- Placeholder round used as the default of `headD` in witnesses. -/
def dummyRound : Round :=
  { apartment := a0, bids := [], entries := [] }


/-- Placeholder log entry used as the default of `headD` in witnesses. -/
def dummyLogEntry : LogEntry :=
  { apartment_name := "", person_id := "", person_name := "",
    expected_payment := 0, adjusted_bid := 0, group_winning_bid := 0,
    second_highest_bid_for_apt := 0 }

/-- Placeholder matching result used as the default of `headD` in
witnesses. -/
def dummyResult : MatchingResult :=
  { apartmentId := "", apartmentName := "", assignedPeople := [],
    totalPayment := 0, tenants := 0, capacity := 0 }

/-- Placeholder assigned person used as the default of `headD` in
witnesses. -/
def dummyAssigned : AssignedPerson :=
  { id := "", name := "", payment := 0 }

theorem orderedInsertBy_perm (le : α → α → Bool) (a : α) (l : List α) :
    List.Perm (orderedInsertBy le a l) (a :: l) := by
  induction l with
  | nil => exact List.Perm.refl _
  | cons b l ih =>
    simp only [orderedInsertBy]
    by_cases h : le a b
    · simp [h]
    · simp only [h, if_false]
      exact (ih.cons b).trans (List.Perm.swap a b l)

theorem sortBy_perm (le : α → α → Bool) (l : List α) :
    List.Perm (sortBy le l) l := by
  induction l with
  | nil => exact List.Perm.refl _
  | cons a l ih =>
    exact (orderedInsertBy_perm le a (sortBy le l)).trans (ih.cons a)

theorem mem_sortBy (le : α → α → Bool) (l : List α) (x : α) :
    x ∈ sortBy le l ↔ x ∈ l :=
  (sortBy_perm le l).mem_iff

theorem pairwise_orderedInsertBy (le : α → α → Bool)
    (htot : ∀ a b, le a b = true ∨ le b a = true)
    (htrans : ∀ a b c, le a b = true → le b c = true → le a c = true)
    (a : α) (l : List α) (hl : l.Pairwise (fun x y => le x y = true)) :
    (orderedInsertBy le a l).Pairwise (fun x y => le x y = true) := by
  induction l with
  | nil => simp [orderedInsertBy]
  | cons b l ih =>
    rw [List.pairwise_cons] at hl
    simp only [orderedInsertBy]
    by_cases h : le a b
    · rw [if_pos h, List.pairwise_cons]
      refine ⟨?_, List.pairwise_cons.mpr hl⟩
      intro y hy
      rcases List.mem_cons.mp hy with rfl | hy
      · exact h
      · exact htrans a b y h (hl.1 y hy)
    · rw [if_neg h, List.pairwise_cons]
      refine ⟨?_, ih hl.2⟩
      intro y hy
      have hy2 : y ∈ a :: l := (orderedInsertBy_perm le a l).mem_iff.mp hy
      rcases List.mem_cons.mp hy2 with rfl | hy3
      · rcases htot y b with h2 | h2
        · exact absurd h2 h
        · exact h2
      · exact hl.1 y hy3

theorem pairwise_sortBy (le : α → α → Bool)
    (htot : ∀ a b, le a b = true ∨ le b a = true)
    (htrans : ∀ a b c, le a b = true → le b c = true → le a c = true)
    (l : List α) : (sortBy le l).Pairwise (fun x y => le x y = true) := by
  induction l with
  | nil => simp [sortBy]
  | cons a l ih => exact pairwise_orderedInsertBy le htot htrans a _ ih

theorem sqrtQ_nonneg (q : ℚ) : 0 ≤ sqrtQ q := by
  unfold sqrtQ
  dsimp only
  split_ifs <;> positivity

theorem sqrtQ_zero : sqrtQ 0 = 0 := by
  unfold sqrtQ
  norm_num

theorem sumSquares_self (v : List ℚ) : sumSquares v v = 0 := by
  induction v with
  | nil => rfl
  | cons a v ih =>
    simp only [sumSquares, List.zipWith_cons_cons, List.sum_cons] at ih ⊢
    rw [ih]
    ring

theorem sumSquares_comm (v w : List ℚ) : sumSquares v w = sumSquares w v := by
  induction v generalizing w with
  | nil => cases w <;> rfl
  | cons a v ih =>
    cases w with
    | nil => rfl
    | cons b w =>
      simp only [sumSquares, List.zipWith_cons_cons, List.sum_cons] at ih ⊢
      rw [show (a - b) ^ 2 = (b - a) ^ 2 by ring, ih]

theorem windowDirectionDeduction_eq (prefs : PersonPreferences) (apt : Apartment) :
    windowDirectionDeduction prefs apt =
      if prefs.windowDirections ≠ [] ∧
          ∀ d ∈ prefs.windowDirections, d ∉ apt.windowDirections
      then prefs.windowDirectionsWorth.getD 0 else 0 := by
  unfold windowDirectionDeduction
  dsimp only
  by_cases h1 : prefs.windowDirections = []
  · simp [h1]
  · have hd : prefs.windowDirections.dedup ≠ [] := by
      simpa [List.dedup_eq_nil] using h1
    rw [if_pos hd]
    by_cases h2 : ∀ d ∈ prefs.windowDirections, d ∉ apt.windowDirections
    · rw [if_pos, if_pos ⟨h1, h2⟩]
      rw [List.filter_eq_nil_iff]
      intro d hd2
      have : d ∈ prefs.windowDirections := List.mem_dedup.mp hd2
      simpa using h2 d this
    · rw [if_neg, if_neg (by simp [h1, h2])]
      rw [List.filter_eq_nil_iff]
      push_neg at h2
      obtain ⟨d, hd2, hd3⟩ := h2
      intro hall
      exact absurd (by simpa using hd3) (hall d (List.mem_dedup.mpr hd2))

theorem collectMemberBids_some (apt : Apartment) (gs : ℕ)
    (ms : List DecodedPerson) (lt : List (String × ℚ) × ℚ)
    (h : collectMemberBids apt gs ms = some lt) :
    lt.1 = ms.map (fun m => (m.person.id, calculateAdjustedBid m apt gs)) ∧
    lt.2 = (ms.map (fun m => calculateAdjustedBid m apt gs)).sum := by
  induction ms generalizing lt with
  | nil =>
    simp only [collectMemberBids, Option.some.injEq] at h
    subst h
    simp
  | cons m rest ih =>
    simp only [collectMemberBids] at h
    split_ifs at h
    rcases Option.map_eq_some'.mp h with ⟨lt0, hlt0, rfl⟩
    obtain ⟨h1, h2⟩ := ih lt0 hlt0
    simp [h1, h2]

theorem collectMemberBids_isSome_iff (apt : Apartment) (gs : ℕ)
    (ms : List DecodedPerson) :
    (collectMemberBids apt gs ms).isSome ↔
      ∀ m ∈ ms, (gs > 1 → m.person.allowRoommates = true) ∧
        0 ≤ calculateAdjustedBid m apt gs := by
  induction ms with
  | nil => simp [collectMemberBids]
  | cons m rest ih =>
    simp only [collectMemberBids]
    by_cases h1 : gs > 1 ∧ ¬ m.person.allowRoommates
    · rw [if_pos h1]
      simp only [Option.isSome_none, Bool.false_eq_true, false_iff]
      intro hall
      exact absurd ((hall m (by simp)).1 h1.1) h1.2
    · rw [if_neg h1]
      by_cases h2 : calculateAdjustedBid m apt gs < 0
      · rw [if_pos h2]
        simp only [Option.isSome_none, Bool.false_eq_true, false_iff]
        intro hall
        exact absurd ((hall m (by simp)).2) (not_le.mpr h2)
      · rw [if_neg h2]
        have hmap : (Option.map (fun lt : List (String × ℚ) × ℚ =>
            ((m.person.id, calculateAdjustedBid m apt gs) :: lt.1,
              calculateAdjustedBid m apt gs + lt.2))
            (collectMemberBids apt gs rest)).isSome
            = (collectMemberBids apt gs rest).isSome := by
          cases collectMemberBids apt gs rest <;> rfl
        rw [hmap, ih]
        constructor
        · intro hall
          intro m2 hm2
          rcases List.mem_cons.mp hm2 with rfl | hm3
          · constructor
            · intro hgs
              by_contra hna
              exact h1 ⟨hgs, by simpa using hna⟩
            · exact not_lt.mp h2
          · exact hall m2 hm3
        · intro hall m2 hm2
          exact hall m2 (List.mem_cons_of_mem m hm2)

theorem tryBid_some (apt : Apartment) (u : List DecodedPerson)
    (g : RoommateGroup) (b : ApartmentBid) (h : tryBid apt u g = some b) :
    b.apartment = apt ∧ b.bidder = g ∧
    b.individualAdjustedBids =
      g.members.map (fun m => (m.person.id, calculateAdjustedBid m apt g.members.length)) ∧
    b.totalGroupBid =
      (g.members.map (fun m => calculateAdjustedBid m apt g.members.length)).sum ∧
    0 < b.totalGroupBid ∧ g.members ≠ [] ∧ BidCollectible apt u g := by
  unfold tryBid at h
  dsimp only at h
  split_ifs at h with h1 h2 h3
  rcases hcmb : collectMemberBids apt g.members.length g.members with _ | lt
  · rw [hcmb] at h
    cases h
  · rw [hcmb] at h
    dsimp only at h
    split_ifs at h with h4
    injection h with h5
    subst h5
    obtain ⟨hfst, hsnd⟩ := collectMemberBids_some apt g.members.length g.members lt hcmb
    have hcond := (collectMemberBids_isSome_iff apt g.members.length g.members).mp
      (by rw [hcmb]; rfl)
    have hunassigned : ∀ m ∈ g.members, ∃ p ∈ u, p.person.id = m.person.id := by
      intro m hm
      by_contra hno
      apply h1
      rw [List.any_eq_true]
      refine ⟨m, hm, ?_⟩
      simp only [decide_eq_true_eq, List.any_eq_true]
      push_neg at hno ⊢
      intro p hp
      simpa using hno p hp
    have hsum0 : 0 < lt.2 := h4
    have hmem_ne : g.members ≠ [] := by
      intro hnil
      rw [hsnd, hnil] at hsum0
      simp at hsum0
    refine ⟨rfl, rfl, hfst, hsnd, hsum0, hmem_ne, ?_⟩
    refine ⟨hunassigned, not_lt.mp h2, ?_, ?_, ?_⟩
    · intro hgt
      by_contra hna
      exact h3 ⟨hgt, by simpa using hna⟩
    · intro m hm
      obtain ⟨ha, hb2⟩ := hcond m hm
      exact ⟨fun hgt => ha hgt, hb2⟩
    · rw [← hsnd]
      exact hsum0

theorem tryBid_isSome_iff (apt : Apartment) (u : List DecodedPerson)
    (g : RoommateGroup) :
    (tryBid apt u g).isSome ↔ BidCollectible apt u g := by
  constructor
  · intro h
    obtain ⟨b, hb⟩ := Option.isSome_iff_exists.mp h
    exact (tryBid_some apt u g b hb).2.2.2.2.2.2
  · intro hc
    obtain ⟨hc1, hc2, hc3, hc4, hc5⟩ := hc
    unfold tryBid
    dsimp only
    rw [if_neg, if_neg (not_lt.mpr hc2), if_neg]
    · rcases hcmb : collectMemberBids apt g.members.length g.members with _ | lt
      · exfalso
        have : (collectMemberBids apt g.members.length g.members).isSome := by
          rw [collectMemberBids_isSome_iff]
          exact hc4
        rw [hcmb] at this
        cases this
      · dsimp only
        obtain ⟨hfst, hsnd⟩ := collectMemberBids_some apt g.members.length g.members lt hcmb
        rw [if_pos (by rw [hsnd]; exact hc5)]
        rfl
    · intro hand
      exact absurd (hc3 hand.1) (by simpa using hand.2)
    · intro hany
      rw [List.any_eq_true] at hany
      obtain ⟨m, hm, hmb⟩ := hany
      simp only [decide_eq_true_eq, List.any_eq_true] at hmb
      obtain ⟨p, hp, hpid⟩ := hc1 m hm
      exact hmb ⟨p, hp, by simpa using hpid⟩

theorem mem_tryBid_foldl (apt : Apartment) (u : List DecodedPerson)
    (gs : List RoommateGroup) (acc : List ApartmentBid) (b : ApartmentBid) :
    b ∈ gs.foldl (fun acc g =>
        match tryBid apt u g with
        | some x => acc ++ [x]
        | none => acc) acc ↔
      b ∈ acc ∨ ∃ g ∈ gs, tryBid apt u g = some b := by
  induction gs generalizing acc with
  | nil => simp
  | cons g gs ih =>
    simp only [List.foldl_cons]
    rcases htry : tryBid apt u g with _ | x
    · dsimp only
      rw [ih]
      constructor
      · rintro (hb | ⟨g2, hg2, hb⟩)
        · exact Or.inl hb
        · exact Or.inr ⟨g2, List.mem_cons_of_mem g hg2, hb⟩
      · rintro (hb | ⟨g2, hg2, hb⟩)
        · exact Or.inl hb
        · rcases List.mem_cons.mp hg2 with rfl | hg3
          · rw [htry] at hb
            cases hb
          · exact Or.inr ⟨g2, hg3, hb⟩
    · dsimp only
      rw [ih]
      constructor
      · rintro (hb | ⟨g2, hg2, hb⟩)
        · rcases List.mem_append.mp hb with hb2 | hb2
          · exact Or.inl hb2
          · rcases List.mem_singleton.mp hb2 with rfl
            exact Or.inr ⟨g, List.mem_cons_self g gs, htry⟩
        · exact Or.inr ⟨g2, List.mem_cons_of_mem g hg2, hb⟩
      · rintro (hb | ⟨g2, hg2, hb⟩)
        · exact Or.inl (List.mem_append.mpr (Or.inl hb))
        · rcases List.mem_cons.mp hg2 with rfl | hg3
          · rw [htry] at hb
            injection hb with hb2
            subst hb2
            exact Or.inl (List.mem_append.mpr (Or.inr (by simp)))
          · exact Or.inr ⟨g2, hg3, hb⟩

theorem mem_bidsForApartment (apt : Apartment) (gs : List RoommateGroup)
    (u : List DecodedPerson) (b : ApartmentBid) :
    b ∈ bidsForApartment apt gs u ↔ ∃ g ∈ gs, tryBid apt u g = some b := by
  unfold bidsForApartment
  rw [mem_sortBy, mem_tryBid_foldl]
  simp

theorem bidsForApartment_sorted (apt : Apartment) (gs : List RoommateGroup)
    (u : List DecodedPerson) :
    (bidsForApartment apt gs u).Pairwise
      (fun x y => y.totalGroupBid ≤ x.totalGroupBid) := by
  unfold bidsForApartment
  have h := pairwise_sortBy
    (fun a b : ApartmentBid => decide (b.totalGroupBid ≤ a.totalGroupBid))
    (by
      intro a b
      rcases le_total b.totalGroupBid a.totalGroupBid with h | h
      · exact Or.inl (by simpa using h)
      · exact Or.inr (by simpa using h))
    (by
      intro a b c h1 h2
      simp only [decide_eq_true_eq] at h1 h2 ⊢
      exact h2.trans h1)
    (gs.foldl (fun acc g =>
      match tryBid apt u g with
      | some x => acc ++ [x]
      | none => acc) [])
  exact h.imp (fun h2 => by simpa using h2)

theorem selectBestAux_mem :
    ∀ (l : List (Apartment × List ApartmentBid)) (cur : Option (Apartment × List ApartmentBid))
      (hi : ℚ) (x : Apartment × List ApartmentBid),
      selectBestAux l cur hi = some x → x ∈ l ∨ cur = some x := by
  intro l
  induction l with
  | nil =>
    intro cur hi x h
    exact Or.inr h
  | cons p rest ih =>
    intro cur hi x h
    obtain ⟨a, bs⟩ := p
    cases bs with
    | nil =>
      rcases ih _ _ _ h with h2 | h2
      · exact Or.inl (List.mem_cons_of_mem _ h2)
      · exact Or.inr h2
    | cons b bs2 =>
      simp only [selectBestAux] at h
      split_ifs at h with hgt
      · rcases ih _ _ _ h with h2 | h2
        · exact Or.inl (List.mem_cons_of_mem _ h2)
        · injection h2 with h3
          subst h3
          exact Or.inl (List.mem_cons_self _ _)
      · rcases ih _ _ _ h with h2 | h2
        · exact Or.inl (List.mem_cons_of_mem _ h2)
        · exact Or.inr h2

theorem selectBest_mem (l : List (Apartment × List ApartmentBid))
    (x : Apartment × List ApartmentBid) (h : selectBest l = some x) : x ∈ l := by
  rcases selectBestAux_mem l none (-1) x h with h2 | h2
  · exact h2
  · cases h2

theorem mem_roundBids (apts : List Apartment) (gs : List RoommateGroup)
    (u : List DecodedPerson) (x : Apartment × List ApartmentBid)
    (h : x ∈ roundBids apts gs u) :
    x.1 ∈ apts ∧ x.2 = bidsForApartment x.1 gs u ∧ x.2 ≠ [] := by
  unfold roundBids at h
  rw [List.mem_filter] at h
  obtain ⟨h1, h2⟩ := h
  rw [List.mem_map] at h1
  obtain ⟨a, ha, hax⟩ := h1
  subst hax
  refine ⟨ha, rfl, ?_⟩
  simpa [List.isEmpty_iff] using h2

theorem getCombinations_sublist :
    ∀ (l : List α) (k : ℕ) (c : List α), c ∈ getCombinations l k → c.Sublist l := by
  intro l
  induction l with
  | nil =>
    intro k c hc
    cases k with
    | zero =>
      simp only [getCombinations, List.mem_singleton] at hc
      subst hc
      exact List.Sublist.refl []
    | succ k => simp [getCombinations] at hc
  | cons x xs ih =>
    intro k c hc
    cases k with
    | zero =>
      simp only [getCombinations, List.mem_singleton] at hc
      subst hc
      exact List.nil_sublist _
    | succ k =>
      simp only [getCombinations, List.mem_append, List.mem_map] at hc
      rcases hc with ⟨c0, hc0, rfl⟩ | hc1
      · exact List.Sublist.cons₂ x (ih k c0 hc0)
      · exact List.Sublist.cons x (ih (k + 1) c hc1)

theorem mem_addGroup (st : GenState) (key : List String) (g0 g : RoommateGroup)
    (h : g ∈ (addGroup st key g0).2) : g ∈ st.2 ∨ g = g0 := by
  unfold addGroup at h
  split_ifs at h
  · exact Or.inl h
  · rcases List.mem_append.mp h with h2 | h2
    · exact Or.inl h2
    · exact Or.inr (List.mem_singleton.mp h2)

theorem mem_comboStep (pAnchor : DecodedPerson) (st : GenState)
    (combo : List (ℚ × DecodedPerson)) (g : RoommateGroup)
    (h : g ∈ (comboStep pAnchor st combo).2) :
    g ∈ st.2 ∨ g.members = pAnchor :: combo.map (fun c => c.2) := by
  unfold comboStep at h
  dsimp only at h
  split_ifs at h <;>
    first
      | exact Or.inl h
      | (rcases mem_addGroup _ _ _ _ h with h2 | h2
         · exact Or.inl h2
         · right
           rw [h2])

theorem mem_comboFold (pAnchor : DecodedPerson)
    (combos : List (List (ℚ × DecodedPerson))) :
    ∀ (st : GenState) (g : RoommateGroup),
      g ∈ (combos.foldl (comboStep pAnchor) st).2 →
      g ∈ st.2 ∨ ∃ combo ∈ combos, g.members = pAnchor :: combo.map (fun c => c.2) := by
  induction combos with
  | nil =>
    intro st g h
    exact Or.inl h
  | cons c cs ih =>
    intro st g h
    simp only [List.foldl_cons] at h
    rcases ih _ g h with h2 | ⟨combo, hc, hm⟩
    · rcases mem_comboStep _ _ _ _ h2 with h3 | h3
      · exact Or.inl h3
      · exact Or.inr ⟨c, by simp, h3⟩
    · exact Or.inr ⟨combo, List.mem_cons_of_mem _ hc, hm⟩

theorem mem_rangeFold (u : List DecodedPerson) (pAnchor : DecodedPerson)
    (ks : List ℕ) :
    ∀ (st : GenState) (g : RoommateGroup),
      g ∈ (ks.foldl (fun st i =>
        let numRoommates := i + 1
        if numRoommates > (roommateCandidatesOf u pAnchor).length then st
        else
          (getCombinations (scoredCandidatesOf u pAnchor) numRoommates).foldl
            (comboStep pAnchor) st) st).2 →
      g ∈ st.2 ∨ ∃ k combo,
        combo ∈ getCombinations (scoredCandidatesOf u pAnchor) k ∧
        g.members = pAnchor :: combo.map (fun c => c.2) := by
  induction ks with
  | nil =>
    intro st g h
    exact Or.inl h
  | cons i ks ih =>
    intro st g h
    simp only [List.foldl_cons] at h
    rcases ih _ g h with h2 | h2
    · split_ifs at h2
      · exact Or.inl h2
      · rcases mem_comboFold _ _ _ g h2 with h3 | ⟨combo, hc, hm⟩
        · exact Or.inl h3
        · exact Or.inr ⟨i + 1, combo, hc, hm⟩
    · exact Or.inr h2

theorem mem_anchorStep (u : List DecodedPerson) (st : GenState)
    (pAnchor : DecodedPerson) (g : RoommateGroup)
    (h : g ∈ (anchorStep u st pAnchor).2) :
    g ∈ st.2 ∨ g.members = [pAnchor] ∨
      ∃ k combo, combo ∈ getCombinations (scoredCandidatesOf u pAnchor) k ∧
        g.members = pAnchor :: combo.map (fun c => c.2) := by
  unfold anchorStep at h
  dsimp only at h
  rcases mem_rangeFold u pAnchor _ _ g h with h2 | h2
  · rcases mem_addGroup _ _ _ _ h2 with h3 | h3
    · exact Or.inl h3
    · right
      left
      rw [h3]
  · exact Or.inr (Or.inr h2)

theorem mem_genFold (u : List DecodedPerson) :
    ∀ (l : List DecodedPerson) (st : GenState) (g : RoommateGroup),
      g ∈ (l.foldl (anchorStep u) st).2 →
      g ∈ st.2 ∨ ∃ p ∈ l, g.members = [p] ∨
        ∃ k combo, combo ∈ getCombinations (scoredCandidatesOf u p) k ∧
          g.members = p :: combo.map (fun c => c.2) := by
  intro l
  induction l with
  | nil =>
    intro st g h
    exact Or.inl h
  | cons p rest ih =>
    intro st g h
    simp only [List.foldl_cons] at h
    rcases ih _ g h with h2 | ⟨p2, hp2, hsh⟩
    · rcases mem_anchorStep u st p g h2 with h3 | h3
      · exact Or.inl h3
      · exact Or.inr ⟨p, by simp, h3⟩
    · exact Or.inr ⟨p2, List.mem_cons_of_mem _ hp2, hsh⟩

theorem generatePotentialGroups_shape (u : List DecodedPerson)
    (g : RoommateGroup) (hg : g ∈ generatePotentialGroups u) :
    ∃ p ∈ u, g.members = [p] ∨
      ∃ k combo, combo ∈ getCombinations (scoredCandidatesOf u p) k ∧
        g.members = p :: combo.map (fun c => c.2) := by
  unfold generatePotentialGroups at hg
  rw [mem_sortBy] at hg
  rcases mem_genFold u u ([], []) g hg with h | h
  · cases h
  · exact h

theorem generatePotentialGroups_members_ne_nil (u : List DecodedPerson)
    (g : RoommateGroup) (hg : g ∈ generatePotentialGroups u) :
    g.members ≠ [] := by
  obtain ⟨p, _, hshape⟩ := generatePotentialGroups_shape u g hg
  rcases hshape with h1 | ⟨k, combo, _, hm⟩
  · rw [h1]
    simp
  · rw [hm]
    simp

theorem generatePotentialGroups_nodup (u : List DecodedPerson)
    (g : RoommateGroup)
    (hu : (u.map (fun p => p.person.id)).Nodup)
    (hg : g ∈ generatePotentialGroups u) :
    (g.members.map (fun m => m.person.id)).Nodup := by
  obtain ⟨p, hp, hshape⟩ := generatePotentialGroups_shape u g hg
  have hcand : ((roommateCandidatesOf u p).map (fun c => c.person.id)).Nodup := by
    unfold roommateCandidatesOf
    exact hu.sublist ((List.filter_sublist u).map _)
  have hscored : ((scoredCandidatesOf u p).map (fun c => c.2.person.id)).Nodup := by
    unfold scoredCandidatesOf
    have hperm := (sortBy_perm (fun a b : ℚ × DecodedPerson => decide (b.1 ≤ a.1))
      ((roommateCandidatesOf u p).map
        (fun c => (calculateSocialCompatibility p c, c)))).map
      (fun c : ℚ × DecodedPerson => c.2.person.id)
    rw [hperm.nodup_iff]
    rw [List.map_map]
    exact hcand
  rcases hshape with h1 | ⟨k, combo, hc, hm⟩
  · rw [h1]
    simp
  · rw [hm]
    rw [List.map_cons, List.nodup_cons]
    have hsub : combo.Sublist (scoredCandidatesOf u p) :=
      getCombinations_sublist _ _ _ hc
    constructor
    · intro hmem
      rw [List.map_map, List.mem_map] at hmem
      obtain ⟨c, hcm, hcid⟩ := hmem
      have hcs : c ∈ scoredCandidatesOf u p := hsub.subset hcm
      unfold scoredCandidatesOf at hcs
      rw [mem_sortBy, List.mem_map] at hcs
      obtain ⟨cand, hcand2, hceq⟩ := hcs
      unfold roommateCandidatesOf at hcand2
      rw [List.mem_filter] at hcand2
      apply absurd _ (by simpa using hcand2.2)
      rw [← hceq] at hcid
      simpa using hcid
    · rw [List.map_map]
      have hsubmap := hsub.map (fun c : ℚ × DecodedPerson => c.2.person.id)
      exact hscored.sublist hsubmap

theorem runMatchingLoop_cases (fuel : ℕ) (u : List DecodedPerson)
    (apts : List Apartment) :
    runMatchingLoop (fuel + 1) u apts = [] ∨
    runMatchingLoop (fuel + 1) u apts = runMatchingLoop fuel u apts ∨
    (∃ apt b rest,
      selectBest (roundBids apts (generatePotentialGroups u) u) = some (apt, b :: rest) ∧
      ¬ b.totalGroupBid > 0 ∧
      runMatchingLoop (fuel + 1) u apts =
        runMatchingLoop fuel u (apts.filter (fun a2 => a2.id ≠ apt.id))) ∨
    (∃ apt b rest,
      selectBest (roundBids apts (generatePotentialGroups u) u) = some (apt, b :: rest) ∧
      b.totalGroupBid > 0 ∧
      runMatchingLoop (fuel + 1) u apts =
        { apartment := apt, bids := b :: rest,
          entries := mkEntries apt (secondHighestOf (b :: rest)) b.totalGroupBid b } ::
        runMatchingLoop fuel
          (u.filter (fun p =>
            ¬ (b.bidder.members.map (fun m => m.person.id)).contains p.person.id))
          (apts.filter (fun a2 => a2.id ≠ apt.id))) := by
  by_cases h1 : u.isEmpty ∨ apts.isEmpty
  · left
    rcases h1 with h1 | h1 <;> rw [List.isEmpty_iff] at h1 <;> simp [runMatchingLoop, h1]
  · push_neg at h1
    obtain ⟨h1a, h1b⟩ := h1
    have hu : u ≠ [] := by simpa [List.isEmpty_iff] using h1a
    have hapts : apts ≠ [] := by simpa [List.isEmpty_iff] using h1b
    by_cases h2 : generatePotentialGroups u = []
    · left
      simp [runMatchingLoop, hu, hapts, h2]
    · rcases hsel : selectBest (roundBids apts (generatePotentialGroups u) u) with _ | ⟨apt, bids⟩
      · left
        simp [runMatchingLoop, hu, hapts, h2, hsel]
      · cases bids with
        | nil =>
          right
          left
          simp [runMatchingLoop, hu, hapts, h2, hsel]
        | cons b rest =>
          by_cases h3 : b.totalGroupBid > 0
          · right
            right
            right
            refine ⟨apt, b, rest, rfl, h3, ?_⟩
            simp [runMatchingLoop, hu, hapts, h2, hsel, h3]
          · right
            right
            left
            refine ⟨apt, b, rest, rfl, h3, ?_⟩
            simp [runMatchingLoop, hu, hapts, h2, hsel, h3]

theorem winning_bids_eq (u : List DecodedPerson) (apts : List Apartment)
    (apt : Apartment) (bids : List ApartmentBid)
    (hsel : selectBest (roundBids apts (generatePotentialGroups u) u) = some (apt, bids)) :
    bids = bidsForApartment apt (generatePotentialGroups u) u ∧ apt ∈ apts := by
  have hmem := selectBest_mem _ _ hsel
  have h := mem_roundBids apts (generatePotentialGroups u) u (apt, bids) hmem
  exact ⟨h.2.1, h.1⟩

theorem bidWF_of_tryBid (apt : Apartment) (u : List DecodedPerson)
    (g : RoommateGroup) (b : ApartmentBid) (h : tryBid apt u g = some b) :
    BidWF b := by
  obtain ⟨hapt, hbidder, hassoc, htot, hpos, hne, hcoll⟩ := tryBid_some apt u g b h
  refine ⟨?_, ?_, ?_, hpos, ?_⟩
  · rw [htot, hassoc, List.map_map]
    rfl
  · intro x hx
    rw [hassoc, List.mem_map] at hx
    obtain ⟨m, hm, rfl⟩ := hx
    exact ((hcoll.2.2.2.1 m hm).2)
  · rw [hassoc, hbidder, List.map_map]
    rfl
  · rw [hbidder]
    exact hne

theorem runMatchingLoop_length_le_fuel :
    ∀ (fuel : ℕ) (u : List DecodedPerson) (apts : List Apartment),
      (runMatchingLoop fuel u apts).length ≤ fuel := by
  intro fuel
  induction fuel with
  | zero =>
    intro u apts
    simp [runMatchingLoop]
  | succ fuel ih =>
    intro u apts
    rcases runMatchingLoop_cases fuel u apts with h | h |
      ⟨apt, b, rest, _, _, h⟩ | ⟨apt, b, rest, _, _, h⟩
    · rw [h]
      simp
    · rw [h]
      exact (ih u apts).trans (Nat.le_succ fuel)
    · rw [h]
      exact (ih _ _).trans (Nat.le_succ fuel)
    · rw [h]
      simp only [List.length_cons]
      exact Nat.succ_le_succ (ih _ _)

theorem runMatchingLoop_length_le_people :
    ∀ (fuel : ℕ) (u : List DecodedPerson) (apts : List Apartment),
      (runMatchingLoop fuel u apts).length ≤ u.length := by
  intro fuel
  induction fuel with
  | zero =>
    intro u apts
    simp [runMatchingLoop]
  | succ fuel ih =>
    intro u apts
    rcases runMatchingLoop_cases fuel u apts with h | h |
      ⟨apt, b, rest, _, _, h⟩ | ⟨apt, b, rest, hsel, hpos, h⟩
    · rw [h]
      simp
    · rw [h]
      exact ih u apts
    · rw [h]
      exact ih _ _
    · rw [h]
      simp only [List.length_cons]
      obtain ⟨hbids, hapts⟩ := winning_bids_eq u apts apt (b :: rest) hsel
      have hbmem : b ∈ bidsForApartment apt (generatePotentialGroups u) u := by
        rw [← hbids]
        exact List.mem_cons_self b rest
      rw [mem_bidsForApartment] at hbmem
      obtain ⟨g, hg, htry⟩ := hbmem
      obtain ⟨_, hbidder, _, _, _, hne, hcoll⟩ := tryBid_some apt u g b htry
      have hlt : (u.filter (fun p =>
          ¬ (b.bidder.members.map (fun m => m.person.id)).contains p.person.id)).length
          < u.length := by
        rcases hm0 : g.members with _ | ⟨m0, ms⟩
        · exact absurd hm0 hne
        · obtain ⟨p, hp, hpid⟩ := hcoll.1 m0 (by rw [hm0]; exact List.mem_cons_self m0 ms)
          refine List.length_filter_lt_length_iff_exists.mpr ⟨p, hp, ?_⟩
          simp only [decide_eq_true_eq, not_not, Bool.not_eq_true, Bool.not_eq_false]
          rw [hbidder]
          apply List.elem_eq_true_of_mem
          rw [List.mem_map]
          refine ⟨m0, by rw [hm0]; exact List.mem_cons_self m0 ms, ?_⟩
          exact hpid.symm
      have := ih (u.filter (fun p =>
          ¬ (b.bidder.members.map (fun m => m.person.id)).contains p.person.id))
        (apts.filter (fun a2 => a2.id ≠ apt.id))
      exact Nat.succ_le_of_lt (Nat.lt_of_le_of_lt this hlt)

theorem runMatchingLoop_wf :
    ∀ (fuel : ℕ) (u : List DecodedPerson) (apts : List Apartment) (r : Round),
      r ∈ runMatchingLoop fuel u apts → RoundWF r := by
  intro fuel
  induction fuel with
  | zero =>
    intro u apts r hr
    simp [runMatchingLoop] at hr
  | succ fuel ih =>
    intro u apts r hr
    rcases runMatchingLoop_cases fuel u apts with h | h |
      ⟨apt, b, rest, _, _, h⟩ | ⟨apt, b, rest, hsel, hpos, h⟩ <;> rw [h] at hr
    · cases hr
    · exact ih u apts r hr
    · exact ih _ _ r hr
    · rcases List.mem_cons.mp hr with rfl | hr2
      · obtain ⟨hbids, hapts⟩ := winning_bids_eq u apts apt (b :: rest) hsel
        refine ⟨b, rest, rfl, rfl, ?_, ?_⟩
        · intro x hx
          have hx2 : x ∈ bidsForApartment apt (generatePotentialGroups u) u := by
            rw [← hbids]
            exact hx
          rw [mem_bidsForApartment] at hx2
          obtain ⟨g, _, htry⟩ := hx2
          exact bidWF_of_tryBid apt u g x htry
        · rw [hbids]
          exact bidsForApartment_sorted apt (generatePotentialGroups u) u
      · exact ih _ _ r hr2

theorem lookup_getD_nonneg (l : List (String × ℚ))
    (hl : ∀ x ∈ l, 0 ≤ x.2) (k : String) : 0 ≤ (l.lookup k).getD 0 := by
  induction l with
  | nil => simp
  | cons x l ih =>
    obtain ⟨a, v⟩ := x
    cases h : (k == a) with
    | true =>
      simp only [List.lookup, h, Option.getD_some]
      exact hl (a, v) (by simp)
    | false =>
      simp only [List.lookup, h]
      exact ih (fun y hy => hl y (List.mem_cons_of_mem _ hy))

theorem round_entry_form (r : Round) (hwf : RoundWF r) (e : LogEntry)
    (he : e ∈ r.entries) :
    e.second_highest_bid_for_apt = secondHighestOf r.bids ∧
    e.group_winning_bid = roundWinningTotal r ∧
    e.expected_payment = secondHighestOf r.bids * (e.adjusted_bid / roundWinningTotal r) ∧
    0 ≤ e.adjusted_bid ∧ 0 < roundWinningTotal r ∧ 0 ≤ secondHighestOf r.bids ∧
    secondHighestOf r.bids ≤ roundWinningTotal r := by
  obtain ⟨b, bs, hbids, hentries, hall, hsorted⟩ := hwf
  have hb : BidWF b := hall b (by rw [hbids]; exact List.mem_cons_self b bs)
  have hwt : roundWinningTotal r = b.totalGroupBid := by
    rw [roundWinningTotal, hbids]
  have hsecond : 0 ≤ secondHighestOf r.bids ∧
      secondHighestOf r.bids ≤ b.totalGroupBid := by
    rw [hbids]
    cases bs with
    | nil =>
      constructor
      · simp [secondHighestOf]
      · simp only [secondHighestOf]
        exact le_of_lt hb.2.2.2.1
    | cons b2 bs2 =>
      have hb2 : BidWF b2 := hall b2 (by rw [hbids]; simp)
      constructor
      · simp only [secondHighestOf]
        exact le_of_lt hb2.2.2.2.1
      · simp only [secondHighestOf]
        rw [hbids] at hsorted
        exact (List.pairwise_cons.mp hsorted).1 b2 (by simp)
  rw [hentries] at he
  unfold mkEntries at he
  rw [List.mem_map] at he
  obtain ⟨m, hm, rfl⟩ := he
  dsimp only
  refine ⟨by rw [hbids], hwt.symm, ?_, ?_, ?_, hsecond.1, ?_⟩
  · rw [hbids, hwt]
  · exact lookup_getD_nonneg b.individualAdjustedBids hb.2.1 m.person.id
  · rw [hwt]
    exact hb.2.2.2.1
  · rw [hwt]
    exact hsecond.2

theorem sum_map_lookup (ms : List DecodedPerson) :
    ∀ (l : List (String × ℚ)),
      l.map (fun x => x.1) = ms.map (fun m => m.person.id) →
      (ms.map (fun m => m.person.id)).Nodup →
      ms.map (fun m => (l.lookup m.person.id).getD 0) = l.map (fun x => x.2) := by
  induction ms with
  | nil =>
    intro l hkeys _
    cases l with
    | nil => rfl
    | cons x l => simp at hkeys
  | cons m ms ih =>
    intro l hkeys hnd
    cases l with
    | nil => simp at hkeys
    | cons x l =>
      obtain ⟨a, v⟩ := x
      simp only [List.map_cons, List.cons.injEq] at hkeys
      obtain ⟨hx1, hrest⟩ := hkeys
      rw [List.map_cons, List.nodup_cons] at hnd
      obtain ⟨hnotin, hnd2⟩ := hnd
      simp only [List.map_cons]
      congr 1
      · simp [List.lookup, hx1]
      · have hmap : ms.map (fun m2 => ((((a, v) :: l).lookup m2.person.id)).getD 0)
            = ms.map (fun m2 => ((l.lookup m2.person.id)).getD 0) := by
          apply List.map_congr_left
          intro m2 hm2
          have hne : (m2.person.id == a) = false := by
            rw [beq_eq_false_iff_ne, hx1]
            intro heq
            exact hnotin (List.mem_map.mpr ⟨m2, hm2, heq⟩)
          simp only [List.lookup, hne]
        rw [hmap]
        exact ih l hrest hnd2

theorem roundWF_payment_sum (r : Round) (hwf : RoundWF r)
    (hnd : (roundIds r).Nodup) :
    (roundPayments r).sum = secondHighestOf r.bids := by
  obtain ⟨b, bs, hbids, hentries, hall, hsorted⟩ := hwf
  have hb : BidWF b := hall b (by rw [hbids]; exact List.mem_cons_self b bs)
  have hids : roundIds r = b.bidder.members.map (fun m => m.person.id) := by
    rw [roundIds, hentries]
    unfold mkEntries
    rw [List.map_map]
    rfl
  rw [hids] at hnd
  have hvals := sum_map_lookup b.bidder.members b.individualAdjustedBids hb.2.2.1 hnd
  have hpay : roundPayments r = b.bidder.members.map
      (fun m => secondHighestOf (b :: bs) *
        (((b.individualAdjustedBids.lookup m.person.id).getD 0) / b.totalGroupBid)) := by
    rw [roundPayments, hentries]
    unfold mkEntries
    rw [List.map_map]
    rfl
  rw [hpay, hbids]
  have htne : b.totalGroupBid ≠ 0 := ne_of_gt hb.2.2.2.1
  have hfac : b.bidder.members.map (fun m => secondHighestOf (b :: bs) *
        (((b.individualAdjustedBids.lookup m.person.id).getD 0) / b.totalGroupBid))
      = b.bidder.members.map (fun m => (secondHighestOf (b :: bs) / b.totalGroupBid) *
        ((b.individualAdjustedBids.lookup m.person.id).getD 0)) := by
    apply List.map_congr_left
    intro m _
    ring
  rw [hfac, List.sum_map_mul_left, hvals, ← hb.1]
  exact div_mul_cancel₀ _ htne

theorem runMatchingLoop_ids :
    ∀ (fuel : ℕ) (u : List DecodedPerson) (apts : List Apartment),
      (u.map (fun p => p.person.id)).Nodup →
      ((((runMatchingLoop fuel u apts).map roundIds).flatten.Nodup) ∧
        ∀ i ∈ ((runMatchingLoop fuel u apts).map roundIds).flatten,
          i ∈ u.map (fun p => p.person.id)) := by
  intro fuel
  induction fuel with
  | zero =>
    intro u apts hu
    simp [runMatchingLoop]
  | succ fuel ih =>
    intro u apts hu
    rcases runMatchingLoop_cases fuel u apts with h | h |
      ⟨apt, b, rest, _, _, h⟩ | ⟨apt, b, rest, hsel, hpos, h⟩ <;> rw [h]
    · simp
    · exact ih u apts hu
    · exact ih u _ hu
    · simp only [List.map_cons, List.flatten_cons]
      obtain ⟨hbids, hapts⟩ := winning_bids_eq u apts apt (b :: rest) hsel
      have hbmem : b ∈ bidsForApartment apt (generatePotentialGroups u) u := by
        rw [← hbids]
        exact List.mem_cons_self b rest
      rw [mem_bidsForApartment] at hbmem
      obtain ⟨g, hg, htry⟩ := hbmem
      obtain ⟨_, hbidder, _, _, _, hne, hcoll⟩ := tryBid_some apt u g b htry
      have hrids : roundIds { apartment := apt,
                              bids := b :: rest,
                              entries := mkEntries apt (secondHighestOf (b :: rest))
                                b.totalGroupBid b }
          = b.bidder.members.map (fun m => m.person.id) := by
        rw [roundIds]
        unfold mkEntries
        rw [List.map_map]
        rfl
      rw [hrids]
      have hmnd : (b.bidder.members.map (fun m => m.person.id)).Nodup := by
        rw [hbidder]
        exact generatePotentialGroups_nodup u g hu hg
      have hmsub : ∀ i ∈ b.bidder.members.map (fun m => m.person.id),
          i ∈ u.map (fun p => p.person.id) := by
        intro i hi
        rw [hbidder, List.mem_map] at hi
        obtain ⟨m, hm, rfl⟩ := hi
        obtain ⟨p, hp, hpid⟩ := hcoll.1 m hm
        exact List.mem_map.mpr ⟨p, hp, hpid⟩
      have hu2nd : ((u.filter (fun p =>
          ¬ (b.bidder.members.map (fun m => m.person.id)).contains p.person.id)).map
            (fun p => p.person.id)).Nodup :=
        hu.sublist ((List.filter_sublist u).map _)
      obtain ⟨hrecnd, hrecsub⟩ := ih (u.filter (fun p =>
          ¬ (b.bidder.members.map (fun m => m.person.id)).contains p.person.id)) _ hu2nd
      constructor
      · rw [List.nodup_append]
        refine ⟨hmnd, hrecnd, ?_⟩
        intro i hi hi2
        have hiu2 := hrecsub i hi2
        rw [List.mem_map] at hiu2
        obtain ⟨p, hp2, rfl⟩ := hiu2
        rw [List.mem_filter] at hp2
        have hnc := hp2.2
        simp only [decide_eq_true_eq] at hnc
        exact absurd (List.elem_eq_true_of_mem hi) (by simpa using hnc)
      · intro i hi
        rcases List.mem_append.mp hi with hi | hi
        · exact hmsub i hi
        · have hi2 := hrecsub i hi
          rw [List.mem_map] at hi2 ⊢
          obtain ⟨p, hp2, rfl⟩ := hi2
          rw [List.mem_filter] at hp2
          exact ⟨p, hp2.1, rfl⟩

theorem logEntryStep_payments (apts : List Apartment) (P : ℚ → Prop)
    (acc : List (String × MatchingResult)) (e : LogEntry)
    (hP : P e.expected_payment)
    (hacc : ∀ kv ∈ acc, ∀ ap ∈ kv.2.assignedPeople, P ap.payment) :
    ∀ kv ∈ logEntryStep apts acc e, ∀ ap ∈ kv.2.assignedPeople, P ap.payment := by
  intro kv hkv ap hap
  unfold logEntryStep at hkv
  dsimp only at hkv
  split_ifs at hkv with hsome
  · rw [List.mem_map] at hkv
    obtain ⟨kv0, hkv0, hkv0eq⟩ := hkv
    by_cases hk : kv0.1 = e.apartment_name
    · rw [if_pos hk] at hkv0eq
      subst hkv0eq
      dsimp only at hap
      rcases List.mem_append.mp hap with hap2 | hap2
      · exact hacc kv0 hkv0 ap hap2
      · rw [List.mem_singleton] at hap2
        subst hap2
        exact hP
    · rw [if_neg hk] at hkv0eq
      subst hkv0eq
      exact hacc kv0 hkv0 ap hap
  · rcases hfind : apts.find? (fun a => a.name = e.apartment_name) with _ | apt
    · rw [hfind] at hkv
      exact hacc kv hkv ap hap
    · rw [hfind] at hkv
      rcases List.mem_append.mp hkv with hkv2 | hkv2
      · exact hacc kv hkv2 ap hap
      · rw [List.mem_singleton] at hkv2
        subst hkv2
        dsimp only at hap
        rcases List.mem_append.mp hap with hap2 | hap2
        · cases hap2
        · rw [List.mem_singleton] at hap2
          subst hap2
          exact hP

theorem logEntryStep_total (apts : List Apartment) (S : ℚ → Prop)
    (acc : List (String × MatchingResult)) (e : LogEntry)
    (hS : S e.group_winning_bid)
    (hacc : ∀ kv ∈ acc, S kv.2.totalPayment) :
    ∀ kv ∈ logEntryStep apts acc e, S kv.2.totalPayment := by
  intro kv hkv
  unfold logEntryStep at hkv
  dsimp only at hkv
  split_ifs at hkv with hsome
  · rw [List.mem_map] at hkv
    obtain ⟨kv0, hkv0, hkv0eq⟩ := hkv
    by_cases hk : kv0.1 = e.apartment_name
    · rw [if_pos hk] at hkv0eq
      subst hkv0eq
      exact hS
    · rw [if_neg hk] at hkv0eq
      subst hkv0eq
      exact hacc kv0 hkv0
  · rcases hfind : apts.find? (fun a => a.name = e.apartment_name) with _ | apt
    · rw [hfind] at hkv
      exact hacc kv hkv
    · rw [hfind] at hkv
      rcases List.mem_append.mp hkv with hkv2 | hkv2
      · exact hacc kv hkv2
      · rw [List.mem_singleton] at hkv2
        subst hkv2
        exact hS

theorem foldl_logEntryStep_payments (apts : List Apartment) (P : ℚ → Prop) :
    ∀ (log : List LogEntry) (acc : List (String × MatchingResult)),
      (∀ e ∈ log, P e.expected_payment) →
      (∀ kv ∈ acc, ∀ ap ∈ kv.2.assignedPeople, P ap.payment) →
      ∀ kv ∈ log.foldl (logEntryStep apts) acc, ∀ ap ∈ kv.2.assignedPeople, P ap.payment := by
  intro log
  induction log with
  | nil =>
    intro acc _ hacc
    exact hacc
  | cons e log ih =>
    intro acc hlog hacc
    simp only [List.foldl_cons]
    exact ih _ (fun e2 he2 => hlog e2 (List.mem_cons_of_mem _ he2))
      (logEntryStep_payments apts P acc e (hlog e (List.mem_cons_self _ _)) hacc)

theorem foldl_logEntryStep_total (apts : List Apartment) (S : ℚ → Prop) :
    ∀ (log : List LogEntry) (acc : List (String × MatchingResult)),
      (∀ e ∈ log, S e.group_winning_bid) →
      (∀ kv ∈ acc, S kv.2.totalPayment) →
      ∀ kv ∈ log.foldl (logEntryStep apts) acc, S kv.2.totalPayment := by
  intro log
  induction log with
  | nil =>
    intro acc _ hacc
    exact hacc
  | cons e log ih =>
    intro acc hlog hacc
    simp only [List.foldl_cons]
    exact ih _ (fun e2 he2 => hlog e2 (List.mem_cons_of_mem _ he2))
      (logEntryStep_total apts S acc e (hlog e (List.mem_cons_self _ _)) hacc)

theorem lookup_isSome_iff {β : Type} (l : List (String × β)) (k : String) :
    (l.lookup k).isSome ↔ k ∈ l.map (fun kv => kv.1) := by
  induction l with
  | nil => simp [List.lookup]
  | cons x l ih =>
    obtain ⟨a, v⟩ := x
    cases h : (k == a) with
    | true =>
      have : k = a := by simpa using h
      simp [List.lookup, h, this]
    | false =>
      have : ¬ k = a := by simpa using h
      simp [List.lookup, h, ih, this]

theorem logEntryStep_keys_nodup (apts : List Apartment)
    (acc : List (String × MatchingResult)) (e : LogEntry)
    (h : (acc.map (fun kv => kv.1)).Nodup) :
    ((logEntryStep apts acc e).map (fun kv => kv.1)).Nodup := by
  unfold logEntryStep
  dsimp only
  split_ifs with hsome
  · have : (acc.map (fun kv =>
        if kv.1 = e.apartment_name
        then (kv.1, { kv.2 with
          assignedPeople := kv.2.assignedPeople ++
            [{ id := e.person_id, name := e.person_name, payment := e.expected_payment }],
          tenants := kv.2.tenants + 1,
          totalPayment := e.group_winning_bid })
        else kv)).map (fun kv => kv.1) = acc.map (fun kv => kv.1) := by
      rw [List.map_map]
      apply List.map_congr_left
      intro kv _
      by_cases hk : kv.1 = e.apartment_name
      · simp [hk]
      · simp [hk]
    rw [this]
    exact h
  · rcases hfind : apts.find? (fun a => a.name = e.apartment_name) with _ | apt
    · rw [hfind]
      exact h
    · rw [hfind]
      rw [List.map_append]
      rw [List.nodup_append]
      refine ⟨h, by simp, ?_⟩
      intro k hk hk2
      simp only [List.map_cons, List.map_nil, List.mem_singleton] at hk2
      subst hk2
      apply hsome
      rw [lookup_isSome_iff]
      exact hk

theorem map_upd_ids (e : LogEntry) :
    ∀ (acc : List (String × MatchingResult)),
      (acc.map (fun kv => kv.1)).Nodup →
      e.apartment_name ∈ acc.map (fun kv => kv.1) →
      List.Perm
        ((acc.map (fun kv =>
          if kv.1 = e.apartment_name
          then (kv.1, { kv.2 with
            assignedPeople := kv.2.assignedPeople ++
              [{ id := e.person_id, name := e.person_name, payment := e.expected_payment }],
            tenants := kv.2.tenants + 1,
            totalPayment := e.group_winning_bid })
          else kv)).map
            (fun kv => kv.2.assignedPeople.map (fun a => a.id))).flatten
        (e.person_id ::
          (acc.map (fun kv => kv.2.assignedPeople.map (fun a => a.id))).flatten) := by
  intro acc
  induction acc with
  | nil =>
    intro _ hmem
    simp at hmem
  | cons kv acc ih =>
    intro hnd hmem
    rw [List.map_cons, List.nodup_cons] at hnd
    obtain ⟨hnd1, hnd2⟩ := hnd
    by_cases hk : kv.1 = e.apartment_name
    · have htail : acc.map (fun kv =>
          if kv.1 = e.apartment_name
          then (kv.1, { kv.2 with
            assignedPeople := kv.2.assignedPeople ++
              [{ id := e.person_id, name := e.person_name, payment := e.expected_payment }],
            tenants := kv.2.tenants + 1,
            totalPayment := e.group_winning_bid })
          else kv) = acc.map id := by
        apply List.map_congr_left
        intro kv2 hkv2
        rw [if_neg]
        · rfl
        · intro hk2
          apply hnd1
          have hkk : kv.1 = kv2.1 := by rw [hk, hk2]
          rw [hkk]
          exact List.mem_map.mpr ⟨kv2, hkv2, rfl⟩
      simp only [List.map_cons, List.flatten_cons, htail, List.map_id, if_pos hk]
      rw [List.map_append, List.append_assoc]
      exact List.perm_middle
    · have hmem2 : e.apartment_name ∈ acc.map (fun kv => kv.1) := by
        rcases List.mem_cons.mp hmem with h2 | h2
        · exact absurd h2.symm hk
        · exact h2
      simp only [List.map_cons, List.flatten_cons, if_neg hk]
      have hper := ih hnd2 hmem2
      exact (hper.append_left _).trans List.perm_middle

theorem logEntryStep_ids (apts : List Apartment) (e : LogEntry)
    (acc : List (String × MatchingResult))
    (hnd : (acc.map (fun kv => kv.1)).Nodup) :
    ((logEntryStep apts acc e).map
        (fun kv => kv.2.assignedPeople.map (fun a => a.id))).flatten
      = (acc.map (fun kv => kv.2.assignedPeople.map (fun a => a.id))).flatten ∨
    List.Perm
      ((logEntryStep apts acc e).map
        (fun kv => kv.2.assignedPeople.map (fun a => a.id))).flatten
      (e.person_id ::
        (acc.map (fun kv => kv.2.assignedPeople.map (fun a => a.id))).flatten) := by
  unfold logEntryStep
  dsimp only
  split_ifs with hsome
  · right
    apply map_upd_ids e acc hnd
    rw [← lookup_isSome_iff]
    exact hsome
  · rcases hfind : apts.find? (fun a => a.name = e.apartment_name) with _ | apt
    · rw [hfind]
      left
      rfl
    · rw [hfind]
      right
      rw [List.map_append, List.flatten_append]
      simp only [List.map_cons, List.map_nil, List.flatten_cons, List.flatten_nil,
        List.nil_append, List.append_nil]
      exact List.perm_append_singleton _ _

theorem foldl_logEntryStep_ids (apts : List Apartment) :
    ∀ (log : List LogEntry) (acc : List (String × MatchingResult)),
      (acc.map (fun kv => kv.1)).Nodup →
      ((log.map (fun e => e.person_id)) ++
        (acc.map (fun kv => kv.2.assignedPeople.map (fun a => a.id))).flatten).Nodup →
      ((log.foldl (logEntryStep apts) acc).map
        (fun kv => kv.2.assignedPeople.map (fun a => a.id))).flatten.Nodup := by
  intro log
  induction log with
  | nil =>
    intro acc _ hnd
    simpa using hnd
  | cons e log ih =>
    intro acc hk hnd
    simp only [List.foldl_cons]
    apply ih (logEntryStep apts acc e) (logEntryStep_keys_nodup apts acc e hk)
    simp only [List.map_cons, List.cons_append] at hnd
    rcases logEntryStep_ids apts e acc hk with hstep | hstep
    · rw [hstep]
      exact hnd.sublist (List.sublist_cons_self _ _)
    · have hper : List.Perm
          ((log.map (fun e2 => e2.person_id)) ++
            ((logEntryStep apts acc e).map
              (fun kv => kv.2.assignedPeople.map (fun a => a.id))).flatten)
          ((log.map (fun e2 => e2.person_id)) ++
            (e.person_id ::
              (acc.map (fun kv => kv.2.assignedPeople.map (fun a => a.id))).flatten)) :=
        hstep.append_left _
      rw [hper.nodup_iff]
      rw [(List.perm_middle).nodup_iff]
      exact hnd

/-- C5 (amended): the source's pairwise compatibility score is the
negation of the Euclidean distance between the two normalized social
vectors: it is never positive, it is symmetric, and it is 0 (not 100)
for identical profiles; the averaged `100 - |a - b|` formula of the
claim is not what the code computes. -/
theorem c5_compatibility_is_negated_distance (p q : DecodedPerson) :
    calculateSocialCompatibility p q ≤ 0 ∧
    calculateSocialCompatibility p q = calculateSocialCompatibility q p ∧
    calculateSocialCompatibility p p = 0 := by
  refine ⟨?_, ?_, ?_⟩
  · unfold calculateSocialCompatibility euclideanDistance
    exact neg_nonpos.mpr (sqrtQ_nonneg _)
  · unfold calculateSocialCompatibility euclideanDistance
    rw [sumSquares_comm]
  · unfold calculateSocialCompatibility euclideanDistance
    rw [sumSquares_self, sqrtQ_zero, neg_zero]

/-- C5 counterexample: an applicant with all four interpersonal
attributes and both time ranges present scores 0 against themself under
the source's `calculateSocialCompatibility`, while the claimed averaging
formula yields 100. -/
theorem c5_identical_profiles_score_zero_not_100 :
    calculateSocialCompatibility (preparePersonForMatching p0)
      (preparePersonForMatching p0) = 0 ∧
    specInterpersonalCompatibility p0 p0 = 100 ∧ (0 : ℚ) ≠ 100 := by
  refine ⟨?_, ?_, by norm_num⟩
  · with_unfolding_all rfl
  · with_unfolding_all rfl

/-- C6: in `calculateAdjustedBid`, the window-direction penalty is
deducted exactly when the applicant's desired direction list is
non-empty and none of its directions appears in the unit's direction
list; with at least one overlap the bid equals the bid of the same
applicant with no direction preference. -/
theorem c6_window_direction_any_overlap (m : DecodedPerson)
    (apt : Apartment) (gs : ℕ) :
    calculateAdjustedBid m apt gs =
      calculateAdjustedBid (clearWindowDirections m) apt gs -
        (if m.person.preferences.windowDirections ≠ [] ∧
            ∀ d ∈ m.person.preferences.windowDirections, d ∉ apt.windowDirections
          then m.person.preferences.windowDirectionsWorth.getD 0 else 0) := by
  unfold calculateAdjustedBid clearWindowDirections
  dsimp only
  rw [windowDirectionDeduction_eq, windowDirectionDeduction_eq]
  dsimp only
  simp only [ne_eq, eq_self_iff_true, not_true_eq_false, false_and, if_false]
  unfold amenityDeduction
  dsimp only
  ring

/-- C9: the matching engine is a pure function of its inputs; two runs
on equal applicant and unit lists return equal result lists. -/
theorem c9_deterministic (people1 people2 : List Person)
    (apts1 apts2 : List Apartment) (h1 : people1 = people2)
    (h2 : apts1 = apts2) :
    runMatching people1 apts1 = runMatching people2 apts2 := by
  rw [h1, h2]

/-- C9 witness at a concrete input. -/
theorem c9_deterministic_witness :
    [p0] = [p0] ∧ [a0] = [a0] ∧ runMatching [p0] [a0] = runMatching [p0] [a0] :=
  ⟨rfl, rfl, c9_deterministic [p0] [p0] [a0] [a0] rfl rfl⟩

/-- C10: as soon as an applicant's preferred window-direction list is
non-empty, executing `calculateAdjustedBid` as written throws, because
`apartment.windowDirections` is an array per `apartmentSchema` and
`Array.prototype` has no `has` method; no number is returned. -/
theorem c10_adjusted_bid_typeerror (m : DecodedPerson) (apt : Apartment)
    (gs : ℕ) (h : m.person.preferences.windowDirections ≠ []) :
    calculateAdjustedBidRun m apt gs =
      Except.error "TypeError: apartment.windowDirections.has is not a function" := by
  unfold calculateAdjustedBidRun
  dsimp only
  rw [if_pos]
  simpa [List.dedup_eq_nil] using h

/-- C10 witness: a concrete applicant asking for a south-facing window
makes the adjusted-bid computation fault on a concrete apartment. -/
theorem c10_adjusted_bid_typeerror_witness :
    pW.preferences.windowDirections ≠ [] ∧
    calculateAdjustedBidRun (preparePersonForMatching pW) a0 1 =
      Except.error "TypeError: apartment.windowDirections.has is not a function" :=
  ⟨by decide, c10_adjusted_bid_typeerror (preparePersonForMatching pW) a0 1 (by decide)⟩

/-- C7: the auction loop of `runMatching` is fuel-bounded by the
iteration cap of 100, each successful round assigns a non-empty group
(so the unassigned pool strictly shrinks), and hence the number of
rounds is also bounded by the number of applicants. -/
theorem c7_loop_capped_and_shrinking (people : List Person)
    (apts : List Apartment) :
    (runMatchingRounds people apts).length ≤ 100 ∧
    (runMatchingRounds people apts).length ≤ people.length ∧
    ∀ r ∈ runMatchingRounds people apts, r.entries ≠ [] := by
  refine ⟨?_, ?_, ?_⟩
  · exact runMatchingLoop_length_le_fuel 100 _ apts
  · have h := runMatchingLoop_length_le_people 100
      (people.map preparePersonForMatching) apts
    simpa using h
  · intro r hr
    have hwf := runMatchingLoop_wf 100 _ apts r hr
    obtain ⟨b, bs, hbids, hentries, hall, _⟩ := hwf
    have hb : BidWF b := hall b (by rw [hbids]; exact List.mem_cons_self _ _)
    rw [hentries]
    unfold mkEntries
    intro hnil
    exact hb.2.2.2.2 (List.map_eq_nil_iff.mp hnil)

/-- C7 witness: at a concrete input the loop runs one round, within the
cap, and that round's entry list is non-empty. -/
theorem c7_termination_witness :
    (runMatchingRounds [p0] [a0]).length ≤ 100 ∧
    ((runMatchingRounds [p0] [a0]).headD dummyRound).entries ≠ [] := by
  constructor
  · exact (c7_loop_capped_and_shrinking [p0] [a0]).1
  · have hlen : (runMatchingRounds [p0] [a0]).length = 1 := by
      with_unfolding_all rfl
    obtain ⟨r0, hr0⟩ := List.length_eq_one.mp hlen
    have h := (c7_loop_capped_and_shrinking [p0] [a0]).2.2 r0
      (by rw [hr0]; exact List.mem_cons_self _ _)
    rw [hr0]
    simpa using h

/-- C1 counterexample: with a single applicant and a single apartment
there is exactly one valid bid in the round; the code then pays 0 (the
second-highest value defaults to 0), not the group's own winning
adjusted bid of 100 as the claim's first-price fallback states. -/
theorem c1_single_bid_pays_zero_not_own_bid :
    (runMatchingRounds [p0] [a0]).map (fun r =>
        (r.bids.length, r.entries.map (fun e =>
          (e.expected_payment, e.adjusted_bid, e.group_winning_bid,
            e.second_highest_bid_for_apt)))) =
      [(1, [(0, 100, 100, 0)])] ∧
    (0 : ℚ) ≠ 100 :=
  ⟨by with_unfolding_all rfl, by norm_num⟩

/-- C1 (amended): in every round the winning group's total payment (the
sum of the member payments) equals the second-highest total bid recorded
for the chosen unit, which is the second element of the round's sorted
bid list when at least two bids exist and 0 (not the group's own bid)
when the round has exactly one bid. -/
theorem c1_round_payment_total_eq_second_highest (people : List Person)
    (apts : List Apartment)
    (hnd : (people.map (fun p => p.id)).Nodup)
    (r : Round) (hr : r ∈ runMatchingRounds people apts) :
    (roundPayments r).sum = secondHighestOf r.bids ∧
    (r.bids.length = 1 → (roundPayments r).sum = 0) ∧
    (∀ h2 : 1 < r.bids.length,
      secondHighestOf r.bids = (r.bids.get ⟨1, h2⟩).totalGroupBid) := by
  have hwf := runMatchingLoop_wf 100 _ apts r hr
  have hnd2 : ((people.map preparePersonForMatching).map
      (fun p => p.person.id)).Nodup := by
    rw [List.map_map]
    exact hnd
  have hids := runMatchingLoop_ids 100 (people.map preparePersonForMatching)
    apts hnd2
  have hrnd : (roundIds r).Nodup := by
    have hjoin := hids.1
    rw [List.nodup_flatten] at hjoin
    exact hjoin.1 (roundIds r) (List.mem_map.mpr ⟨r, hr, rfl⟩)
  refine ⟨roundWF_payment_sum r hwf hrnd, ?_, ?_⟩
  · intro hlen
    rw [roundWF_payment_sum r hwf hrnd]
    obtain ⟨b, bs, hbids, _, _, _⟩ := hwf
    rw [hbids] at hlen ⊢
    cases bs with
    | nil => rfl
    | cons b2 bs2 => simp at hlen
  · intro h2
    obtain ⟨b, bs, hbids, _, _, _⟩ := hwf
    cases bs with
    | nil =>
      rw [hbids] at h2
      simp at h2
    | cons b2 bs2 =>
      have : r.bids.get ⟨1, h2⟩ = b2 := by
        have hg := List.get_of_eq hbids ⟨1, h2⟩
        simpa using hg
      rw [this, hbids]
      rfl

/-- C1 witness: at a concrete two-applicant input the round's payments
sum to the round's second-highest bid. -/
theorem c1_payment_total_witness :
    ([pA, pB].map (fun p => p.id)).Nodup ∧
    (roundPayments ((runMatchingRounds [pA, pB] [apt2]).headD dummyRound)).sum =
      secondHighestOf ((runMatchingRounds [pA, pB] [apt2]).headD dummyRound).bids := by
  refine ⟨by decide, ?_⟩
  have hlen : (runMatchingRounds [pA, pB] [apt2]).length = 1 := by
    with_unfolding_all rfl
  obtain ⟨r0, hr0⟩ := List.length_eq_one.mp hlen
  have h := (c1_round_payment_total_eq_second_highest [pA, pB] [apt2]
    (by decide) r0 (by rw [hr0]; exact List.mem_cons_self _ _)).1
  rw [hr0]
  simpa using h

/-- C2 counterexample: at a concrete two-applicant input the group
{A, B} wins with total adjusted bid 1700 against single bids 900 and
800, so the round total is 900; A (bid ceiling 1000, adjusted bid 900)
pays 900 * (900/1700) = 8100/17 ≈ 476.5, not
900 * (1000/1800) = 500 as the bid-ceiling-proportional rule of the
claim would give. -/
theorem c2_split_not_by_bid_ceiling :
    (runMatchingRounds [pA, pB] [apt2]).map (fun r =>
        (r.bids.map (fun b => b.totalGroupBid),
         r.entries.map (fun e => (e.person_id, e.expected_payment)))) =
      [([1700, 900, 800], [("pa", 8100/17), ("pb", 7200/17)])] ∧
    (8100 / 17 : ℚ) ≠ 900 * (1000 / 1800) :=
  ⟨by with_unfolding_all rfl, by norm_num⟩

/-- C2 (amended): each member of a winning group pays
`secondHighest * (memberAdjustedBid / winningGroupTotal)` — the split is
proportional to the members' post-penalty adjusted bids, not to their
original bid ceilings. -/
theorem c2_member_payment_proportional_to_adjusted_bid (people : List Person)
    (apts : List Apartment) (r : Round)
    (hr : r ∈ runMatchingRounds people apts) (e : LogEntry)
    (he : e ∈ r.entries) :
    e.expected_payment =
      secondHighestOf r.bids * (e.adjusted_bid / roundWinningTotal r) ∧
    e.second_highest_bid_for_apt = secondHighestOf r.bids ∧
    e.group_winning_bid = roundWinningTotal r := by
  have hwf := runMatchingLoop_wf 100 _ apts r hr
  have h := round_entry_form r hwf e he
  exact ⟨h.2.2.1, h.1, h.2.1⟩

/-- C2 witness: the payment formula instantiated at the first entry of
the unique round of a concrete two-applicant run. -/
theorem c2_member_payment_witness :
    (((runMatchingRounds [pA, pB] [apt2]).headD dummyRound).entries.headD
        dummyLogEntry).expected_payment =
      secondHighestOf ((runMatchingRounds [pA, pB] [apt2]).headD dummyRound).bids *
        ((((runMatchingRounds [pA, pB] [apt2]).headD dummyRound).entries.headD
            dummyLogEntry).adjusted_bid /
          roundWinningTotal ((runMatchingRounds [pA, pB] [apt2]).headD dummyRound)) := by
  have hlen : (runMatchingRounds [pA, pB] [apt2]).length = 1 := by
    with_unfolding_all rfl
  obtain ⟨r0, hr0⟩ := List.length_eq_one.mp hlen
  have hc : (runMatchingRounds [pA, pB] [apt2]).map (fun r => r.entries.length) = [2] := by
    with_unfolding_all rfl
  rw [hr0] at hc
  simp only [List.map_cons, List.map_nil, List.cons.injEq, and_true] at hc
  have hne : r0.entries ≠ [] := by
    intro hn
    rw [hn] at hc
    simp at hc
  have hmem : r0.entries.headD dummyLogEntry ∈ r0.entries := by
    cases hE : r0.entries with
    | nil => exact absurd hE hne
    | cons e0 es =>
      simp
  have h := (c2_member_payment_proportional_to_adjusted_bid [pA, pB] [apt2] r0
    (by rw [hr0]; exact List.mem_cons_self _ _) _ hmem).1
  rw [hr0]
  simpa using h

/-- C3 counterexample: an apartment whose single bedroom is already
occupied by one tenant still receives a bid from a singleton group,
although the claimed condition `|group| ≤ capacity - occupancy` fails
(1 > 1 - 1); the code compares the group size against `numBedrooms`
alone and ignores `tenants`. -/
theorem c3_occupancy_ignored_in_bid_collection :
    (bidsForApartment a1b (generatePotentialGroups [preparePersonForMatching p0])
        [preparePersonForMatching p0]).length = 1 ∧
    a1b.tenants = 1 ∧ a1b.numBedrooms = 1 ∧
    ¬ ((1 : ℚ) ≤ a1b.numBedrooms - a1b.tenants) := by
  refine ⟨by with_unfolding_all rfl, by with_unfolding_all rfl,
    by with_unfolding_all rfl, ?_⟩
  norm_num [a1b, a0]

/-- C3 (amended): for every group produced by the generator, a bid for a
(unit, group) pair is collected exactly when the group is entirely
unassigned, the group size is at most the unit's bedroom count (current
occupancy is ignored), a group of more than one person requires the
unit's and every member's roommate consent, every member's individual
adjusted bid is non-negative, and the group's total adjusted bid is
positive; no `maxSize` check is performed at bid-collection time. -/
theorem c3_bid_collected_iff (u : List DecodedPerson) (apt : Apartment)
    (g : RoommateGroup) (hg : g ∈ generatePotentialGroups u) :
    (∃ b ∈ bidsForApartment apt (generatePotentialGroups u) u, b.bidder = g) ↔
      BidCollectible apt u g := by
  constructor
  · rintro ⟨b, hb, hbid⟩
    rw [mem_bidsForApartment] at hb
    obtain ⟨g2, hg2, htry⟩ := hb
    have hparts := tryBid_some apt u g2 b htry
    have hgg : g2 = g := by rw [← hparts.2.1, hbid]
    rw [← hgg]
    exact hparts.2.2.2.2.2.2
  · intro hc
    have hsome : (tryBid apt u g).isSome := (tryBid_isSome_iff apt u g).mpr hc
    obtain ⟨b, hb⟩ := Option.isSome_iff_exists.mp hsome
    refine ⟨b, ?_, (tryBid_some apt u g b hb).2.1⟩
    rw [mem_bidsForApartment]
    exact ⟨g, hg, hb⟩

/-- C3 witness: the bid-collection characterization applied to the
singleton group of a concrete applicant, giving its capacity condition. -/
theorem c3_bid_collected_witness :
    ((((⟨[preparePersonForMatching p0], 100, 1⟩ : RoommateGroup)).members.length : ℚ))
      ≤ a0.numBedrooms := by
  have hgen : generatePotentialGroups [preparePersonForMatching p0] =
      [⟨[preparePersonForMatching p0], 100, 1⟩] := by
    with_unfolding_all rfl
  have hbids : bidsForApartment a0
      (generatePotentialGroups [preparePersonForMatching p0])
      [preparePersonForMatching p0] =
      [{ apartment := a0,
         bidder := ⟨[preparePersonForMatching p0], 100, 1⟩,
         totalGroupBid := 100,
         individualAdjustedBids := [("p0", 100)],
         groupMembersNames := ["P0"] }] := by
    with_unfolding_all rfl
  have h := (c3_bid_collected_iff [preparePersonForMatching p0] a0
    ⟨[preparePersonForMatching p0], 100, 1⟩
    (by rw [hgen]; exact List.mem_cons_self _ _)).mp
    ⟨_, by rw [hbids]; exact List.mem_cons_self _ _, rfl⟩
  exact h.2.1

/-- C4 counterexample: at a concrete input the recorded `totalPayment`
field of the returned result is 1700 (the winning group bid) while the
per-member payments sum to 900 (the second-highest bid); the recorded
value is not the sum of the payments. -/
theorem c4_recorded_total_differs_from_payment_sum :
    (runMatching [pA, pB] [apt2]).map (fun res =>
        (res.totalPayment, (res.assignedPeople.map (fun a => a.payment)).sum)) =
      [(1700, 900)] ∧
    (900 : ℚ) ≠ 1700 :=
  ⟨by with_unfolding_all rfl, by norm_num⟩

/-- C4 (amended): every per-member payment in every returned result is
non-negative; in every round the payments sum to the round's
second-highest bid, which is at most the winning total that every log
entry records as `group_winning_bid`; and every returned result's
`totalPayment` equals the `group_winning_bid` of one of the log entries
(the winning bid, not the payment sum). -/
theorem c4_payments_nonneg_and_round_sums (people : List Person)
    (apts : List Apartment)
    (hnd : (people.map (fun p => p.id)).Nodup) :
    (∀ res ∈ runMatching people apts, ∀ ap ∈ res.assignedPeople, 0 ≤ ap.payment) ∧
    (∀ r ∈ runMatchingRounds people apts,
      (roundPayments r).sum = secondHighestOf r.bids ∧
      secondHighestOf r.bids ≤ roundWinningTotal r ∧
      ∀ e ∈ r.entries, e.group_winning_bid = roundWinningTotal r) ∧
    (∀ res ∈ runMatching people apts,
      ∃ e ∈ assignmentsLogOf people apts,
        res.totalPayment = e.group_winning_bid) := by
  have hlogpay : ∀ e ∈ assignmentsLogOf people apts, 0 ≤ e.expected_payment := by
    intro e he
    unfold assignmentsLogOf at he
    rw [List.mem_flatten] at he
    obtain ⟨s, hs, hes⟩ := he
    rw [List.mem_map] at hs
    obtain ⟨r, hr, rfl⟩ := hs
    have hwf := runMatchingLoop_wf 100 _ apts r hr
    have hf := round_entry_form r hwf e hes
    rw [hf.2.2.1]
    exact mul_nonneg hf.2.2.2.2.2.1
      (div_nonneg hf.2.2.2.1 (le_of_lt hf.2.2.2.2.1))
  refine ⟨?_, ?_, ?_⟩
  · intro res hres ap hap
    unfold runMatching at hres
    rw [List.mem_map] at hres
    obtain ⟨kv, hkv, rfl⟩ := hres
    exact foldl_logEntryStep_payments apts (fun x => 0 ≤ x)
      (assignmentsLogOf people apts) [] hlogpay (by simp) kv hkv ap hap
  · intro r hr
    have hwf := runMatchingLoop_wf 100 _ apts r hr
    have hnd2 : ((people.map preparePersonForMatching).map
        (fun p => p.person.id)).Nodup := by
      rw [List.map_map]
      exact hnd
    have hids := runMatchingLoop_ids 100 (people.map preparePersonForMatching)
      apts hnd2
    have hrnd : (roundIds r).Nodup := by
      have hjoin := hids.1
      rw [List.nodup_flatten] at hjoin
      exact hjoin.1 (roundIds r) (List.mem_map.mpr ⟨r, hr, rfl⟩)
    refine ⟨roundWF_payment_sum r hwf hrnd, ?_, ?_⟩
    · obtain ⟨b, bs, hbids, hentries, hall, hsorted⟩ := hwf
      have hb : BidWF b := hall b (by rw [hbids]; exact List.mem_cons_self _ _)
      have hwt : roundWinningTotal r = b.totalGroupBid := by
        rw [roundWinningTotal, hbids]
      rw [hwt, hbids]
      cases bs with
      | nil =>
        simp only [secondHighestOf]
        exact le_of_lt hb.2.2.2.1
      | cons b2 bs2 =>
        simp only [secondHighestOf]
        rw [hbids] at hsorted
        exact (List.pairwise_cons.mp hsorted).1 b2 (by simp)
    · intro e he
      exact (round_entry_form r hwf e he).2.1
  · intro res hres
    unfold runMatching at hres
    rw [List.mem_map] at hres
    obtain ⟨kv, hkv, rfl⟩ := hres
    exact foldl_logEntryStep_total apts
      (fun t => ∃ e ∈ assignmentsLogOf people apts, t = e.group_winning_bid)
      (assignmentsLogOf people apts) []
      (fun e he => ⟨e, he, rfl⟩) (by simp) kv hkv

/-- C4 witness: at a concrete two-applicant input both returned member
payments are non-negative. -/
theorem c4_payments_witness :
    ([pA, pB].map (fun p => p.id)).Nodup ∧
    0 ≤ (((runMatching [pA, pB] [apt2]).headD dummyResult).assignedPeople.headD
      dummyAssigned).payment := by
  refine ⟨by decide, ?_⟩
  have hlen : (runMatching [pA, pB] [apt2]).length = 1 := by
    with_unfolding_all rfl
  obtain ⟨res0, hres0⟩ := List.length_eq_one.mp hlen
  have hc : (runMatching [pA, pB] [apt2]).map
      (fun res => res.assignedPeople.length) = [2] := by
    with_unfolding_all rfl
  rw [hres0] at hc
  simp only [List.map_cons, List.map_nil, List.cons.injEq, and_true] at hc
  have hne : res0.assignedPeople ≠ [] := by
    intro hn
    rw [hn] at hc
    simp at hc
  have hmem : res0.assignedPeople.headD dummyAssigned ∈ res0.assignedPeople := by
    cases hE : res0.assignedPeople with
    | nil => exact absurd hE hne
    | cons a0 as =>
      simp
  have h := (c4_payments_nonneg_and_round_sums [pA, pB] [apt2] (by decide)).1
    res0 (by rw [hres0]; exact List.mem_cons_self _ _) _ hmem
  rw [hres0]
  simpa using h

/-- C8: when the applicant ids of the input are pairwise distinct, no
applicant id occurs more than once across all assigned people of the
results of a single `runMatching` call. -/
theorem c8_no_double_assignment (people : List Person) (apts : List Apartment)
    (hnd : (people.map (fun p => p.id)).Nodup) :
    (allAssignedIds (runMatching people apts)).Nodup := by
  have hnd2 : ((people.map preparePersonForMatching).map
      (fun p => p.person.id)).Nodup := by
    rw [List.map_map]
    exact hnd
  have hids := (runMatchingLoop_ids 100 (people.map preparePersonForMatching)
    apts hnd2).1
  have hlog : (assignmentsLogOf people apts).map (fun e => e.person_id) =
      ((runMatchingRounds people apts).map roundIds).flatten := by
    unfold assignmentsLogOf
    rw [List.map_flatten, List.map_map]
    rfl
  have hrm : allAssignedIds (runMatching people apts) =
      (((assignmentsLogOf people apts).foldl (logEntryStep apts) []).map
        (fun kv => kv.2.assignedPeople.map (fun a => a.id))).flatten := by
    unfold runMatching allAssignedIds
    rw [List.map_map]
    rfl
  rw [hrm]
  apply foldl_logEntryStep_ids apts (assignmentsLogOf people apts) []
  · simp
  · simp only [List.map_nil, List.flatten_nil, List.append_nil]
    rw [hlog]
    exact hids

/-- C8 witness: at a concrete two-applicant input the assigned ids are
pairwise distinct. -/
theorem c8_no_double_assignment_witness :
    ([pA, pB].map (fun p => p.id)).Nodup ∧
    (allAssignedIds (runMatching [pA, pB] [apt2])).Nodup :=
  ⟨by decide, c8_no_double_assignment [pA, pB] [apt2] (by decide)⟩
